import Mathlib

/-
  Verification of the configuration-schema framework in
  `striker/common/config.py` (schema generation, COW overlay,
  loader deep-merge, bindings, options, lookup and extension).

  The Python code is shallowly embedded: YAML value trees become the
  inductive `Value`, Python dictionaries become insertion-ordered
  association lists, the mutable dictionary heap used by the COW overlay
  becomes an explicit arena of dictionary cells addressed by `DictId`,
  and every translated function mirrors the statement structure of its
  Python source, which is cited by name.
-/

set_option autoImplicit false

namespace Striker

/-- YAML-style value trees: scalars, lists and nested mappings.
Mirrors what `yaml.safe_load` produces for the loader.  Mappings are
insertion-ordered association lists, matching Python dict semantics. -/
inductive Value where
  | vnull
  | vint  (n : Int)
  | vstr  (s : String)
  | vlist (elems : List Value)
  | vdict (entries : List (String × Value))
deriving Repr

/-- Entry list of a Python dictionary holding `Value`s. -/
abbrev Ents := List (String × Value)

/-- Dictionary lookup, `d.get(k)`: first entry with the given key. -/
def entsGet (d : Ents) (k : String) : Option Value :=
  match d with
  | [] => none
  | (k', v) :: rest => if k' = k then some v else entsGet rest k

/-- Dictionary membership, `k in d`. -/
def entsHas (d : Ents) (k : String) : Bool :=
  (entsGet d k).isSome

/-- Dictionary assignment, `d[k] = v`: replaces the value in place if the
key exists (keeping its position), otherwise appends a new entry. -/
def entsSet (d : Ents) (k : String) (v : Value) : Ents :=
  match d with
  | [] => [(k, v)]
  | (k', v') :: rest =>
    if k' = k then (k', v) :: rest else (k', v') :: entsSet rest k v

/-- Keys of a dictionary, in insertion order. -/
def entsKeys (d : Ents) : List String := d.map Prod.fst

/-- Test for `isinstance(value, dict)`. -/
def Value.isDict : Value → Bool
  | .vdict _ => true
  | _ => false

/-- Size of a value, used as the loop measure for the merge queue. -/
def valueSize : Value → Nat
  | .vnull => 1
  | .vint _ => 1
  | .vstr _ => 1
  | .vlist _ => 1
  | .vdict d => 1 + entsSizeAux d
where
  /-- Size of a dictionary entry list. -/
  entsSizeAux : List (String × Value) → Nat
  | [] => 0
  | (_, v) :: rest => 1 + valueSize v + entsSizeAux rest

/-- Size of a dictionary entry list (top-level name). -/
def entsSize (d : Ents) : Nat := valueSize.entsSizeAux d

/-- Error raised by `Load._merge_dict` on a structural mismatch; carries
the full key path of the conflicting key.  The Python message renders it
as the slash-joined string `"/a/b: type mismatch"`. -/
structure MergeErr where
  path : List String
deriving Repr, DecidableEq

/-- Message rendering of a merge error, as built by
`raise ConfigException("/%s: type mismatch" % '/'.join(key_path))`. -/
def MergeErr.message (e : MergeErr) : String :=
  "/" ++ String.intercalate "/" e.path ++ ": type mismatch"

/-- Navigate the destination tree to the nested dictionary at `path`;
every step must pass through a dictionary value. -/
def entsGetPath (d : Ents) : List String → Option Ents
  | [] => some d
  | p :: rest =>
    match entsGet d p with
    | some (.vdict sub) => entsGetPath sub rest
    | _ => none

/-- Assign key `k` to `v` in the nested dictionary at `path` inside `d`
(the pure rendering of mutating a nested Python dict through a
reference).  Leaves `d` unchanged if the path does not lead to a
dictionary, which the merge never does. -/
def entsSetPath (d : Ents) (path : List String) (k : String) (v : Value) : Ents :=
  match path with
  | [] => entsSet d k v
  | p :: rest =>
    match entsGet d p with
    | some (.vdict sub) => entsSet d p (.vdict (entsSetPath sub rest k v))
    | _ => d

/-- Value at a full key path in a tree (dictionary node plus final key). -/
def entsGetAt (d : Ents) (path : List String) (k : String) : Option Value :=
  match entsGetPath d path with
  | some node => entsGet node k
  | none => none

/-- Process the entries of one right-hand-side node of
`Load._merge_dict` (the inner `for key, rh_value in rhs.items()` loop):
missing keys are copied in, shape mismatches abort with the dotted key
path, matching scalars are overwritten, and dictionary/dictionary pairs
are appended to the breadth-first work queue.  Returns the updated
destination tree, the queue items produced (in iteration order) and the
error, if any.  The identity-pair `seen` set of the source never fires
on pure trees (distinct positions are distinct objects), so it has no
rendering here. -/
def mergeNode (root : Ents) (path : List String) :
    Ents → Ents × List (List String × Ents) × Option MergeErr
  | [] => (root, [], none)
  | (k, rv) :: rest =>
    let node := (entsGetPath root path).getD []
    match entsGet node k with
    | none => mergeNode (entsSetPath root path k rv) path rest
    | some lv =>
      if lv.isDict != rv.isDict then
        (root, [], some ⟨path ++ [k]⟩)
      else if lv.isDict then
        let rsub := match rv with | .vdict s => s | _ => []
        let res := mergeNode root path rest
        (res.1, (path ++ [k], rsub) :: res.2.1, res.2.2)
      else
        mergeNode (entsSetPath root path k rv) path rest

/-- Total size of a merge work queue; decreases by at least one on every
iteration of the `while queue` loop, so it bounds the iteration count. -/
def queueSize (q : List (List String × Ents)) : Nat :=
  match q with
  | [] => 0
  | it :: rest => 1 + entsSize it.2 + queueSize rest

/-- Breadth-first work loop of `Load._merge_dict` (`while queue: ...`),
with an explicit fuel argument; `_merge_dict` supplies fuel equal to the
initial queue size, which the loop never exhausts. -/
def mergeLoop : Nat → Ents → List (List String × Ents) → Ents × Option MergeErr
  | _, root, [] => (root, none)
  | 0, root, _ :: _ => (root, none)
  | fuel + 1, root, (path, rhs) :: rest =>
    match mergeNode root path rhs with
    | (root', _, some e) => (root', some e)
    | (root', items, none) => mergeLoop fuel root' (rest ++ items)

/-- Embedding of `Load._merge_dict(lhs, rhs)`: merges the source tree
`rhs` into the destination tree `lhs`, returning the mutated destination
together with the structural-mismatch error, if one was raised. -/
def merge_dict (lhs rhs : Ents) : Ents × Option MergeErr :=
  mergeLoop (entsSize rhs + 1) lhs [([], rhs)]

/-- Embedding of the merge loop of `Load._load`: folds
`_merge_dict(final, raw)` over the parsed contents of the discovered
files, in discovery order, starting from `startwith or {}`.  A raised
merge error aborts the load. -/
def load_files (start : Ents) : List Ents → Ents × Option MergeErr
  | [] => (start, none)
  | c :: rest =>
    match merge_dict start c with
    | (r, some e) => (r, some e)
    | (r, none) => load_files r rest

/-! ## Copy-on-write overlay (`COWDict`)

The COW overlay mutates a tree of Python dict objects through shared
references, so this part of the embedding makes the object heap
explicit: a `Heap` is an arena of dictionary cells addressed by index,
dictionary slots hold scalars, lists, or references (`dref`) to other
cells, and every `COWDict` instance lives in an arena of COW nodes
addressed by index, exactly mirroring the `_orig` / `_new` /
`_lookaside` / `_root` / `_children` attributes of the class. -/

/-- Value stored in a slot of a Python dictionary on the heap. -/
inductive HVal where
  | hnone
  | hint  (n : Int)
  | hstr  (s : String)
  | hlist (elems : List HVal)
  | dref  (id : Nat)
deriving Repr

/-- Entry list of one heap dictionary cell. -/
abbrev HEnts := List (String × HVal)

/-- The heap: dictionary cells addressed by index. -/
abbrev Heap := List HEnts

/-- Generic association-list lookup (first entry wins, as in a dict). -/
def assocGet {α : Type} (d : List (String × α)) (k : String) : Option α :=
  match d with
  | [] => none
  | (k', v) :: rest => if k' = k then some v else assocGet rest k

/-- Generic membership test. -/
def assocHas {α : Type} (d : List (String × α)) (k : String) : Bool :=
  (assocGet d k).isSome

/-- Generic assignment: replace in place or append. -/
def assocSet {α : Type} (d : List (String × α)) (k : String) (v : α) :
    List (String × α) :=
  match d with
  | [] => [(k, v)]
  | (k', v') :: rest =>
    if k' = k then (k', v) :: rest else (k', v') :: assocSet rest k v

/-- Generic removal, `d.pop(k, None)`: drops the entry if present. -/
def assocPop {α : Type} (d : List (String × α)) (k : String) :
    List (String × α) :=
  match d with
  | [] => []
  | (k', v') :: rest =>
    if k' = k then rest else (k', v') :: assocPop rest k

/-- Contents of the heap cell with the given id (a dangling id reads as
an empty dictionary; the embedding only ever uses valid ids). -/
def heapGet (h : Heap) (i : Nat) : HEnts := h.getD i []

/-- Overwrite one heap cell in place. -/
def heapSet (h : Heap) (i : Nat) (d : HEnts) : Heap := h.set i d

/-- Test for `isinstance(rh_value, dict)` on a heap slot value: only a
reference to a dictionary cell is a dict. -/
def HVal.isDictRef : HVal → Bool
  | .dref _ => true
  | _ => false

/-- Structural size of a heap value, used to budget the fuel of the
deep-equality test below. -/
def hvalSize : HVal → Nat
  | .hnone => 1
  | .hint _ => 1
  | .hstr _ => 1
  | .dref _ => 1
  | .hlist xs => 1 + listSizeAux xs
where
  /-- Size of a list of heap values. -/
  listSizeAux : List HVal → Nat
  | [] => 0
  | x :: xs => hvalSize x + listSizeAux xs

/-- Total structural size of all heap cells. -/
def heapSize (h : Heap) : Nat :=
  match h with
  | [] => 0
  | d :: rest => 1 + dictSizeAux d + heapSize rest
where
  /-- Size of one dictionary cell. -/
  dictSizeAux : HEnts → Nat
  | [] => 0
  | (_, v) :: rest => 1 + hvalSize v + dictSizeAux rest

/-- Python deep equality `a == b` over heap values, with fuel: ints and
strings compare by value, lists element-wise, and dictionary references
by cell contents (same length and pointwise-equal values), never by
identity.  Mixed kinds compare unequal.  The fuel only runs out on a
cyclic object graph, where CPython itself fails with a recursion
error. -/
def hvalEqF : Nat → Heap → HVal → HVal → Bool
  | 0, _, _, _ => false
  | fuel + 1, h, a, b =>
    match a, b with
    | .hnone, .hnone => true
    | .hint n, .hint m => n == m
    | .hstr s, .hstr t => s == t
    | .hlist xs, .hlist ys =>
      xs.length == ys.length &&
        (List.zip xs ys).all (fun p => hvalEqF fuel h p.1 p.2)
    | .dref i, .dref j =>
      let d1 := heapGet h i
      let d2 := heapGet h j
      d1.length == d2.length &&
        d1.all (fun p =>
          match assocGet d2 p.1 with
          | some w => hvalEqF fuel h p.2 w
          | none => false)
    | _, _ => false

/-- Deep equality with fuel generous enough for any acyclic heap. -/
def hvalEq (h : Heap) (a b : HVal) : Bool :=
  hvalEqF ((h.length + 1) * (heapSize h + hvalSize a + hvalSize b + 1)) h a b

/-- One `COWDict` node: the id of its original dictionary cell, the
`_new` override map (`none` renders the `_unset` deletion tombstone),
the `_lookaside` cache of materialized child nodes (by COW-node id), the
`_children` list maintained on the transaction root, and the `_root`
back reference (`none` on the root itself). -/
structure COWDict where
  orig : Nat
  new : List (String × Option HVal)
  lookaside : List (String × Nat)
  children : List Nat
  root : Option Nat
deriving Repr

/-- A COW transaction state: the dictionary heap plus the arena of COW
nodes created so far. -/
structure CowState where
  heap : Heap
  cows : List COWDict
deriving Repr

/-- Default node used for dangling COW ids (never hit on valid ids). -/
def cowDefault : COWDict := ⟨0, [], [], [], none⟩

/-- Fetch a COW node by id. -/
def getCow (st : CowState) (cid : Nat) : COWDict :=
  st.cows.getD cid cowDefault

/-- Store a COW node by id. -/
def putCow (st : CowState) (cid : Nat) (node : COWDict) : CowState :=
  { st with cows := st.cows.set cid node }

/-- Embedding of `COWDict.__init__(orig, root)`: allocate a fresh node
with empty override and cache state and, when a transaction root is
given, append the new node to the root's `_children` list.  Returns the
new node's id. -/
def cow_init (st : CowState) (orig : Nat) (root : Option Nat) :
    CowState × Nat :=
  let cid := st.cows.length
  let node : COWDict := ⟨orig, [], [], [], root⟩
  let st := { st with cows := st.cows ++ [node] }
  match root with
  | none => (st, cid)
  | some r =>
    let rnode := getCow st r
    (putCow st r { rnode with children := rnode.children ++ [cid] }, cid)

/-- Result of `COWDict.__getitem__`: a scalar value, a materialized
child `COWDict` (for dictionary values), or a `KeyError`. -/
inductive GetRes where
  | val (v : HVal)
  | child (cid : Nat)
  | keyError
deriving Repr

/-- Embedding of `COWDict.__getitem__(key)`: a cached lookaside child
wins; otherwise the override value (a tombstone raises `KeyError`),
else the original value; a dictionary value is promoted to a child
`COWDict` parented to the transaction root and cached in
`_lookaside`. -/
def cow_getitem (st : CowState) (cid : Nat) (key : String) :
    CowState × GetRes :=
  let node := getCow st cid
  match assocGet node.lookaside key with
  | some c => (st, .child c)
  | none =>
    match
      (match assocGet node.new key with
       | some ov => some ov
       | none =>
         match assocGet (heapGet st.heap node.orig) key with
         | some v => some (some v)
         | none => none) with
    | none => (st, .keyError)
    | some none => (st, .keyError)
    | some (some v) =>
      match v with
      | .dref d =>
        let res := cow_init st d (some (node.root.getD cid))
        let st' := res.1
        let c := res.2
        let node' := getCow st' cid
        (putCow st' cid
          { node' with lookaside := assocSet node'.lookaside key c }, .child c)
      | _ => (st, .val v)

/-- Embedding of `COWDict.__setitem__(key, value)`: drop any cached
child for the key, then either clear the pending override (when the
value compares equal, by Python `==`, to the original value — reset to
base) or record the override. -/
def cow_setitem (st : CowState) (cid : Nat) (key : String) (v : HVal) :
    CowState :=
  let node := getCow st cid
  let node := { node with lookaside := assocPop node.lookaside key }
  let origd := heapGet st.heap node.orig
  let node :=
    if (match assocGet origd key with
        | some w => hvalEq st.heap w v
        | none => false) then
      { node with new := assocPop node.new key }
    else
      { node with new := assocSet node.new key (some v) }
  putCow st cid node

/-- Embedding of `COWDict.__delitem__(key)`: drop any cached child for
the key; record an `_unset` tombstone when the key exists in the
original mapping, otherwise just drop any pending override. -/
def cow_delitem (st : CowState) (cid : Nat) (key : String) : CowState :=
  let node := getCow st cid
  let node := { node with lookaside := assocPop node.lookaside key }
  let origd := heapGet st.heap node.orig
  let node :=
    if assocHas origd key then
      { node with new := assocSet node.new key none }
    else
      { node with new := assocPop node.new key }
  putCow st cid node

/-- Embedding of `COWDict._keys()`: the union of original and override
keys (a Python set; rendered here as a deduplicated list, original keys
first). -/
def cow_keys (st : CowState) (cid : Nat) : List String :=
  let node := getCow st cid
  ((heapGet st.heap node.orig).map Prod.fst ++ node.new.map Prod.fst).dedup

/-- Embedding of `COWDict.__iter__`: the merged keys, skipping any whose
override is the `_unset` tombstone. -/
def cow_iter (st : CowState) (cid : Nat) : List String :=
  let node := getCow st cid
  (cow_keys st cid).filter (fun k =>
    match assocGet node.new k with
    | some none => false
    | _ => true)

/-- Embedding of `COWDict.__len__`: the merged key count minus the
number of tombstones recorded in `_new`. -/
def cow_len (st : CowState) (cid : Nat) : Nat :=
  let node := getCow st cid
  (cow_keys st cid).length - (node.new.filter (fun p => p.2.isNone)).length

/-- Commit loop of `COWDict._apply()` over a dictionary cell: real
values are written, tombstoned keys are removed. -/
def applyNew (d : HEnts) (new : List (String × Option HVal)) : HEnts :=
  new.foldl
    (fun d p =>
      match p.2 with
      | none => assocPop d p.1
      | some v => assocSet d p.1 v) d

/-- Embedding of `COWDict._apply()`: commit this node's overrides into
its original dictionary cell. -/
def cow_apply_one (st : CowState) (cid : Nat) : CowState :=
  let node := getCow st cid
  { st with heap :=
      heapSet st.heap node.orig (applyNew (heapGet st.heap node.orig) node.new) }

/-- Embedding of `COWDict.apply()`: apply this node, then every child
node registered under the transaction, then clear the override,
lookaside and children state of this node (and of this node only — the
child nodes themselves are not cleared by the source). -/
def cow_apply (st : CowState) (cid : Nat) : CowState :=
  let st := cow_apply_one st cid
  let node := getCow st cid
  let st := node.children.foldl cow_apply_one st
  putCow st cid { getCow st cid with new := [], lookaside := [], children := [] }

/-! ## Instance-level load (`Load.inst_load` and `Load._merge_dict`
specialised to a `COWDict` destination)

When `inst_load` runs, `_merge_dict` receives the `COWDict` overlay as
its `lhs`.  `COWDict` subclasses `collections.MutableMapping`, not
`dict`, and `COWDict.__getitem__` promotes nested dictionaries to
`COWDict` children, so inside the merge `isinstance(lh_value, dict)` is
always false for the left-hand side: a dictionary-valued source entry
meeting an existing key therefore always takes the
`(lh_dict ^ rh_dict) == 1` branch and raises the type-mismatch
`ConfigException`, and the `queue` never receives a second item.
`merge_into_cow` renders that specialisation. -/

/-- Result of merging into a COW overlay: the updated state, plus the
raised `ConfigException`, if any. -/
inductive CowMergeRes where
  | ok (st : CowState)
  | err (st : CowState) (e : MergeErr)
deriving Repr

/-- Entry loop of `Load._merge_dict(lhs, rhs)` with `lhs` the `COWDict`
overlay node `cid` and `rhs` the heap dictionary `rhsId` (one parsed
file).  The `key not in lhs` membership test goes through
`COWDict.__getitem__` and therefore materializes child nodes as a side
effect, exactly as `collections.MutableMapping.__contains__` does. -/
def merge_into_cow (st : CowState) (cid : Nat) (rhsId : Nat) : CowMergeRes :=
  go st (heapGet st.heap rhsId)
where
  /-- Iterate `for key, rh_value in rhs.items()`. -/
  go : CowState → List (String × HVal) → CowMergeRes
  | st, [] => .ok st
  | st, (k, rv) :: rest =>
    let res := cow_getitem st cid k
    let st := res.1
    match res.2 with
    | .keyError =>
      -- key not in lhs: lhs[key] = rh_value
      go (cow_setitem st cid k rv) rest
    | .child _ =>
      -- lh_value is a COWDict child: isinstance(lh_value, dict) is False
      if rv.isDictRef then .err st ⟨[k]⟩
      else go (cow_setitem st cid k rv) rest
    | .val _ =>
      -- scalar on the left
      if rv.isDictRef then .err st ⟨[k]⟩
      else go (cow_setitem st cid k rv) rest

/-- Fold of the `_load` merge loop over the discovered files (heap ids
of their parsed contents), merging each into the COW overlay. -/
def load_into_cow (st : CowState) (cid : Nat) : List Nat → CowMergeRes
  | [] => .ok st
  | f :: rest =>
    match merge_into_cow st cid f with
    | .err st e => .err st e
    | .ok st => load_into_cow st cid rest

/-- A `Config` instance: the id of its raw configuration dictionary and
its `_xlated` translation memo cache. -/
structure ConfigInstance where
  raw : Nat
  xlated : List (String × HVal)
deriving Repr

/-- Errors surfaced by `inst_load`. -/
inductive PyError where
  | configErr (e : MergeErr)
  | attributeErr
deriving Repr

/-- Embedding of `Load.inst_load(inst, files)` (with `validate=False`;
validation delegates to the external `jsonschema` library and commutes
with nothing modelled here): build a `COWDict` over the instance's raw
dictionary, deep-merge every file into it via `_load`, commit with
`apply()` and clear the `_xlated` memo cache.  When the raw dictionary
is empty the overlay is falsy, `final = startwith or ` empty dict in
`_load` silently replaces it with a plain dict, and the later
`cow.apply()` fails with an `AttributeError`; that branch is rendered
by `PyError.attributeErr`. -/
def inst_load (heap : Heap) (inst : ConfigInstance) (files : List Nat) :
    Except PyError (Heap × ConfigInstance) :=
  let st : CowState := ⟨heap, []⟩
  let res := cow_init st inst.raw none
  let st := res.1
  let cid := res.2
  if cow_len st cid = 0 then
    .error .attributeErr
  else
    match load_into_cow st cid files with
    | .err _ e => .error (.configErr e)
    | .ok st =>
      let st := cow_apply st cid
      .ok (st.heap, { inst with xlated := [] })

/-! ## String sorting (`sorted(...)` over configuration keys)

Python sorts strings lexicographically by Unicode code point.  The
insertion sort below is the embedding of `sorted()` used by the schema
generator; `strLeb` is code-point lexicographic comparison. -/

/-- Lexicographic-by-code-point string comparison, Python `a <= b`. -/
def strLeb (a b : String) : Bool :=
  go a.data b.data
where
  /-- Lexicographic comparison of character lists. -/
  go : List Char → List Char → Bool
  | [], _ => true
  | _ :: _, [] => false
  | x :: xs, y :: ys =>
    if x.val.toNat < y.val.toNat then true
    else if y.val.toNat < x.val.toNat then false
    else go xs ys

/-- One insertion step of `sorted()`. -/
def strInsert (s : String) : List String → List String
  | [] => [s]
  | t :: rest => if strLeb s t then s :: t :: rest else t :: strInsert s rest

/-- Embedding of Python `sorted()` on a list of strings. -/
def sortStrings : List String → List String
  | [] => []
  | s :: rest => strInsert s (sortStrings rest)

/-- After a commit, key `k` of the node's original cell reads as the
committed override (removed when tombstoned), else as its old value. -/
def committedAt (st st' : CowState) (node : COWDict) : Prop :=
  ∀ k, assocGet (heapGet st'.heap node.orig) k =
    (match assocGet node.new k with
     | some none => none
     | some (some v) => some v
     | none => assocGet (heapGet st.heap node.orig) k)

/-- Witness state for `cow_apply_commits_and_clears_root_only`: the
transaction produced by materializing child `a` of the root overlay and
writing `y = 2` through it. -/
def cowApplyWitnessState : CowState :=
  ⟨[[("a", .dref 1)], [("x", .hint 1)]],
   [⟨0, [], [("a", 1)], [1], none⟩,
    ⟨1, [("y", some (.hint 2))], [], [], some 0⟩]⟩

/-! ## Class composition (`ConfigMeta.__new__`) and schema generation
(`Schema.__get__`) -/

/-- The attributes of a child descriptor (an `Option` instance or a
`Config` subclass) consulted during class composition and schema
assembly: the optional `__key__` override, the `__default__` value
(`none` renders the `_unset` required sentinel) and the child's
generated `__schema__` document. -/
structure OptionDesc where
  key : Option String
  default : Option Value
  schema : Value

/-- One value of the class namespace handed to `ConfigMeta.__new__`: a
child descriptor, the raw `__schema__` fragment dictionary, or any
other attribute value (methods etc., copied through unchanged). -/
inductive NsVal where
  | child (o : OptionDesc)
  | schemaDict (d : Ents)
  | other

/-- The reserved attribute names: every non-dunder attribute of
`BaseConfig` (`RESERVED = frozenset(attr for attr in dir(BaseConfig) if
not attr.startswith('__'))`). -/
def RESERVED : List String := ["_extend", "extend", "load", "lookup", "validate"]

/-- A registered `Binding(attr, key, option)`. -/
structure BindingE where
  attr : String
  key : String
  option : OptionDesc

/-- The registries built by `ConfigMeta.__new__`: `_attrs`, `_keys`
(insertion-ordered) and the captured `_schema_raw` fragment. -/
structure NodeInfo where
  attrs : List (String × BindingE)
  keys : List (String × BindingE)
  schema_raw : Ents

/-- Embedding of `key = getattr(value, '__key__', None) or attr`: the
declared key override wins unless missing or falsy (empty). -/
def derivedKey (attr : String) (o : OptionDesc) : String :=
  match o.key with
  | some k => if k = "" then attr else k
  | none => attr

/-- Test for `attr[0] == '_'` (internal attribute). -/
def startsWithUnderscore (s : String) : Bool :=
  match s.data with
  | [] => false
  | c :: _ => c = '_'

/-- Embedding of the namespace loop of `ConfigMeta.__new__`: reserved
attributes are rejected, `__schema__` is captured (with `type` forced to
`object`) as the raw schema fragment, and every non-internal child
descriptor is wrapped into a `Binding` registered under its attribute
name and its derived source key, rejecting duplicate source keys.
Other namespace values are copied through unchanged (not tracked
here).  The `TypeError` CPython would raise when `__schema__` is not a
dictionary is rendered as an error. -/
def config_meta_new : List (String × NsVal) → NodeInfo → Except String NodeInfo
  | [], acc => .ok acc
  | (attr, v) :: rest, acc =>
    if RESERVED.contains attr then
      .error ("attribute " ++ attr ++ " is reserved; choose an alternate "
        ++ "name and use a key")
    else if attr = "__schema__" then
      match v with
      | .schemaDict d =>
        config_meta_new rest
          { acc with schema_raw := assocSet d "type" (.vstr "object") }
      | _ => .error "unsupported __schema__ value"
    else
      match v with
      | .child o =>
        if startsWithUnderscore attr then
          config_meta_new rest acc
        else
          let key := derivedKey attr o
          if assocHas acc.keys key then
            .error ("multiple definitions for configuration key " ++ key)
          else
            config_meta_new rest
              { acc with
                attrs := assocSet acc.attrs attr ⟨attr, key, o⟩,
                keys := assocSet acc.keys key ⟨attr, key, o⟩ }
      | _ => config_meta_new rest acc

/-- Compose a `Config` subclass from its declared namespace, starting
from the default `_schema_raw = ` a `type: object` fragment. -/
def configMetaNew (ns : List (String × NsVal)) : Except String NodeInfo :=
  config_meta_new ns ⟨[], [], [("type", .vstr "object")]⟩

/-- A namespace entry that `ConfigMeta.__new__` wraps into a `Binding`:
a child descriptor under a non-internal attribute name. -/
def isField : (String × NsVal) → Bool
  | (attr, .child _) => !(startsWithUnderscore attr)
  | _ => false

/-- Embedding of `Schema.__get__`: start from the raw fragment, add the
docstring as `description` when truthy, then assemble `properties` (one
entry per entry of `_keys`, keyed by SOURCE KEY, value the child's
schema) and `required` (the sorted source keys whose descriptor has no
default). -/
def schema_get (doc : Option String) (info : NodeInfo) : Ents :=
  let schema := info.schema_raw
  let schema :=
    match doc with
    | some d => if d = "" then schema else assocSet schema "description" (.vstr d)
    | none => schema
  let properties := info.keys.map (fun p => (p.1, p.2.option.schema))
  let required := sortStrings
    ((info.keys.filter (fun p => p.2.option.default.isNone)).map Prod.fst)
  assocSet (assocSet schema "properties" (.vdict properties)) "required"
    (.vlist (required.map Value.vstr))

/-- Witness namespace for the schema-generation theorem: a required
field `z` (source key `z`) and a required field `a` with the source-key
override `b`. -/
def schemaWitnessNs : List (String × NsVal) :=
  [("z", NsVal.child ⟨none, none, .vdict []⟩),
   ("a", NsVal.child ⟨some "b", none, .vdict [("t", .vstr "int")]⟩)]

/-- Witness registries composed from `schemaWitnessNs`. -/
def schemaWitnessInfo : NodeInfo :=
  ⟨[("z", ⟨"z", "z", ⟨none, none, .vdict []⟩⟩),
    ("a", ⟨"a", "b", ⟨some "b", none, .vdict [("t", .vstr "int")]⟩⟩)],
   [("z", ⟨"z", "z", ⟨none, none, .vdict []⟩⟩),
    ("b", ⟨"a", "b", ⟨some "b", none, .vdict [("t", .vstr "int")]⟩⟩)],
   [("type", .vstr "object")]⟩

/-! ## Schema-cache invalidation (`_schema_invalidate`)

Schema nodes (`Option` instances and `Config` subclasses) form a graph
through their `_parents` sets.  The embedding indexes the finitely many
nodes of a program by `Fin n`; `parents` renders each node's
`_parents` set (in an iteration order, which the result does not depend
on) and `cache : Fin n → Bool` renders whether `_schema_cache` is
non-`None`.  The breadth-first loop is written with an explicit fuel of
`n`, which lemma `invalidateLoop` never exhausts: every iteration pops
one queue entry and every node is enqueued at most once thanks to the
`seen` set, also on cyclic parent graphs. -/

/-- Embedding of the `for parent in work._parents` enqueue loop of
`_schema_invalidate`: parents already seen are skipped, the rest are
appended to the work queue and marked seen. -/
def enqueueParents {n : Nat} (seen : Finset (Fin n)) (queue : List (Fin n)) :
    List (Fin n) → Finset (Fin n) × List (Fin n)
  | [] => (seen, queue)
  | p :: rest =>
    if p ∈ seen then enqueueParents seen queue rest
    else enqueueParents (insert p seen) (queue ++ [p]) rest

/-- Embedding of the `while queue` loop of `_schema_invalidate`: pop the
front; an empty cache is skipped; otherwise clear it and enqueue the
node's unseen parents. -/
def invalidateLoop {n : Nat} (parents : Fin n → List (Fin n)) :
    Nat → (Fin n → Bool) → Finset (Fin n) → List (Fin n) → (Fin n → Bool)
  | _, cache, _, [] => cache
  | 0, cache, _, _ :: _ => cache
  | fuel + 1, cache, seen, w :: rest =>
    if cache w = false then invalidateLoop parents fuel cache seen rest
    else
      invalidateLoop parents fuel (fun x => if x = w then false else cache x)
        (enqueueParents seen rest (parents w)).1
        (enqueueParents seen rest (parents w)).2

/-- Embedding of `_schema_invalidate(child)`:
`seen = set([child]); queue = [child]` and run the loop. -/
def _schema_invalidate {n : Nat} (parents : Fin n → List (Fin n))
    (cache : Fin n → Bool) (child : Fin n) : Fin n → Bool :=
  invalidateLoop parents n cache {child} [child]

/-- A parents-chain whose every non-terminal node has a cached schema:
the shape along which the breadth-first walk actually propagates. -/
def cachedChain {n : Nat} (parents : Fin n → List (Fin n))
    (cache : Fin n → Bool) : Fin n → List (Fin n) → Fin n → Prop
  | x, [], z => x = z
  | x, p :: ps, z => cache x = true ∧ p ∈ parents x ∧ cachedChain parents cache p ps z

/-- Transitive structural-parent reachability (`z` is the node itself or
reached through `_parents` edges). -/
inductive ParentReach {n : Nat} (parents : Fin n → List (Fin n)) :
    Fin n → Fin n → Prop where
  | refl (x : Fin n) : ParentReach parents x x
  | step {x p z : Fin n} : p ∈ parents x → ParentReach parents p z →
      ParentReach parents x z

/-- The loop invariant of `_schema_invalidate`: the queue has no
duplicates, every queued node is seen, and every seen node no longer
queued already has a clear cache. -/
def loopInv {n : Nat} (cache : Fin n → Bool) (seen : Finset (Fin n))
    (queue : List (Fin n)) : Prop :=
  queue.Nodup ∧ (∀ x ∈ queue, x ∈ seen) ∧
    (∀ x ∈ seen, x ∉ queue → cache x = false)

/-- A three-node parent cycle: 0 → 1 → 2 → 0. -/
def cyclicParents : Fin 3 → List (Fin 3) :=
  fun i => if i = 0 then [1] else if i = 1 then [2] else [0]

/-! ## Binding resolution (`Binding.__call__`) -/

/-- The data of a `Binding` consulted during resolution: attribute
name, source key, the option's `__default__` (`none` renders the
`_unset` required sentinel) and its translation `__call__`. -/
structure BindingR where
  attr : String
  key : String
  default : Option Value
  xlate : Value → Value

/-- A `Config` instance as `Binding.__call__` sees it: the raw mapping
and the `_xlated` memo cache. -/
structure InstState where
  raw : Ents
  xlated : List (String × Value)

/-- The `AttributeError` raised for a missing required value, naming
the source key and the attribute. -/
inductive AttrErr where
  | missingRequired (key attr : String)
deriving Repr, DecidableEq

/-- Embedding of `Binding.__call__(obj)`: return the memoized
translation if present; otherwise start from the option's default,
translate the raw value when the source key is present, raise the
missing-required-value error when the result is still `_unset`, and
only then record the memo entry. -/
def binding_call (b : BindingR) (inst : InstState) :
    Except AttrErr Value × InstState :=
  match assocGet inst.xlated b.attr with
  | some v => (.ok v, inst)
  | none =>
    match
      (match assocGet inst.raw b.key with
       | some raw => some (b.xlate raw)
       | none => b.default) with
    | none => (.error (.missingRequired b.key b.attr), inst)
    | some v => (.ok v, { inst with xlated := assocSet inst.xlated b.attr v })

/-! ## `ListOption` translation (`ListOption.__init__` / `__call__`) -/

/-- A child descriptor's translation callable (an `Option` instance or
`Config` subclass, abstracted to its `__call__`). -/
abbrev Desc := Value → Value

/-- The `items` argument of `ListOption.__init__`: omitted, a single
descriptor, or a sequence of positional descriptors where `none`
renders a falsy (omitted) position, which `item or None` stores as
`None`. -/
inductive ItemsSpec where
  | noSpec
  | one (d : Desc)
  | seq (ds : List (Option Desc))

/-- The `_mode` / `_items` state `ListOption.__init__` records. -/
inductive LOMode where
  | noxlate
  | listMode (d : Desc)
  | tupleMode (ds : List (Option Desc))

/-- Mode selection of `ListOption.__init__`: a missing `items` means no
translation, a sequence selects tuple mode (storing `item or None` per
position), anything else selects list mode. -/
def list_option_init : ItemsSpec → LOMode
  | .noSpec => .noxlate
  | .seq ds => .tupleMode ds
  | .one d => .listMode d

/-- The `TypeError` CPython raises for `None(val)` at an omitted tuple
position. -/
inductive TypeErr where
  | noneNotCallable
deriving Repr, DecidableEq

/-- Tuple-mode translation loop of `ListOption.__call__`: each element
with a positional descriptor is translated by it, an element at a
`None` position raises, and elements beyond the end of `_items` pass
through unchanged. -/
def tupleXlate (ds : List (Option Desc)) : List Value → Except TypeErr (List Value)
  | [] => .ok []
  | v :: vs =>
    match ds with
    | [] => (tupleXlate [] vs).map (fun r => v :: r)
    | some d :: ds' => (tupleXlate ds' vs).map (fun r => d v :: r)
    | none :: _ => .error .noneNotCallable

/-- Embedding of `ListOption.__call__(value)` over the stored mode. -/
def list_option_call : LOMode → List Value → Except TypeErr (List Value)
  | .noxlate, v => .ok v
  | .listMode d, v => .ok (v.map d)
  | .tupleMode ds, v => tupleXlate ds v

/-! ## Path interpretation of `lookup()` and `extend()` -/

/-- A schema-tree node as the `lookup()` traversal sees it: its
`_attrs` registry maps attribute names to bindings, each carrying the
source key and the child node (`Config` subclasses and `ListOption`s
have `_attrs`; a plain `Option` has none, which
`getattr(item, '_attrs', {})` renders as the empty registry). -/
inductive CNode where
  | mk (attrs : List (String × String × CNode))

/-- The `_attrs` registry of a node. -/
def cnodeAttrs : CNode → List (String × String × CNode)
  | .mk attrs => attrs

/-- An item of the `lookup()` traversal: the starting class or a
`Binding` (attribute name, source key, wrapped node), which proxies its
node's `_attrs`. -/
inductive LookupItem where
  | cls (c : CNode)
  | bnd (attr key : String) (c : CNode)

/-- The `_attrs` seen through an item (`Binding.__getattr__` proxies to
the wrapped option). -/
def itemAttrs : LookupItem → List (String × String × CNode)
  | .cls c => cnodeAttrs c
  | .bnd _ _ c => cnodeAttrs c

/-- The `item = getattr(item, '_attrs', {})[elem]` descent loop of
`lookup()`; a missing element raises `KeyError`. -/
def lookupPath : LookupItem → List String → Except String LookupItem
  | item, [] => .ok item
  | item, e :: rest =>
    match assocGet (itemAttrs item) e with
    | some (k, c) => lookupPath (.bnd e k c) rest
    | none => .error e

/-- The `name` argument of `lookup()` / `extend()`: a string or a list
of path elements. -/
inductive PathArg where
  | str (s : String)
  | list (l : List String)

/-- Test for `name[0] == '/'`. -/
def startsWithSlash (s : String) : Bool :=
  match s.data with
  | [] => false
  | c :: _ => c = '/'

/-- Embedding of Python `name.split('/')` (keeping empty pieces, which
the callers filter out). -/
def splitSlash (s : String) : List String :=
  go s.data []
where
  /-- Walk the characters, breaking at each slash. -/
  go : List Char → List Char → List String
  | [], acc => [String.mk acc.reverse]
  | c :: rest, acc =>
    if c = '/' then String.mk acc.reverse :: go rest []
    else go rest (c :: acc)

/-- Embedding of `BaseConfig.lookup(name)`: a falsy name raises; a list
of one element is looked up directly; a string not beginning with `/`
is looked up as a single bare attribute of this node (even when it
contains `/` characters); otherwise the slash-split (or given) path,
cleaned of empty pieces, is walked down the option tree. -/
def lookup (cls : CNode) : PathArg → Except String LookupItem
  | .str s =>
    if s = "" then .error s
    else if startsWithSlash s = false then
      match assocGet (cnodeAttrs cls) s with
      | some (k, c) => .ok (.bnd s k c)
      | none => .error s
    else
      lookupPath (.cls cls) ((splitSlash s).filter (fun p => p ≠ ""))
  | .list l =>
    if l = [] then .error ""
    else if l.length = 1 then
      match assocGet (cnodeAttrs cls) (l.headD "") with
      | some (k, c) => .ok (.bnd (l.headD "") k c)
      | none => .error (l.headD "")
    else
      lookupPath (.cls cls) (l.filter (fun p => p ≠ ""))

/-- Embedding of the `attr` interpretation of `BaseConfig.extend`:
returns the `(path, attr)` pair the method goes on to use — the empty
path targeting the class itself for a bare string (one with no leading
`/`, even if slashes occur inside), the cleaned path with its last
element popped for a `/`-path or an element list.  The `IndexError` of
`path.pop()` on an empty cleaned path is rendered as an error. -/
def extendParse : PathArg → Except String (List String × String)
  | .str s =>
    if s = "" then .error "invalid attribute name"
    else if startsWithSlash s = false then .ok ([], s)
    else
      let path := (splitSlash s).filter (fun p => p ≠ "")
      match path.getLast? with
      | some last => .ok (path.dropLast, last)
      | none => .error "IndexError"
  | .list l =>
    if l = [] then .error "invalid attribute name"
    else
      let path := l.filter (fun p => p ≠ "")
      match path.getLast? with
      | some last => .ok (path.dropLast, last)
      | none => .error "IndexError"

/-- Demonstration tree for the lookup claim: the root declares a field
literally named `a/b` (source key `k1`) and a nested node `a` whose
child `b` has source key `k2`. -/
def slashDemoNode : CNode :=
  .mk [("a/b", "k1", .mk []),
       ("a", "ka", .mk [("b", "k2", .mk [])])]

/-- Witness state for the COW override-semantics theorem: original
mapping has keys `a`, `b`; the overlay tombstones `b` and adds `d`. -/
def cowWitnessState : CowState :=
  ⟨[[("a", .hint 1), ("b", .hint 2)]],
   [⟨0, [("b", none), ("d", some (.hint 7))], [], [], none⟩]⟩

/-! ## Theorems -/

theorem entsGet_set_ne (d : Ents) (k k' : String) (v : Value) (h : k ≠ k') :
    entsGet (entsSet d k v) k' = entsGet d k' := by
  induction d with
  | nil => simp [entsSet, entsGet, h]
  | cons e rest ih =>
    obtain ⟨k₀, v₀⟩ := e
    by_cases hk : k₀ = k
    · subst hk
      simp [entsSet, entsGet, h]
    · simp [entsSet, entsGet, hk, ih]

/-- Processing the right-hand entries of a single node: if every entry
before `(k, rv)` is shape-compatible with the destination and `(k, rv)`
is not, the node processing stops with the error naming the key path
ending at `k`, and the destination still maps `k` to its old value. -/
theorem mergeNode_conflict (k : String) (rv : Value) (post : Ents) :
    ∀ (pre : Ents) (lhs : Ents) (lv : Value),
    (entsKeys (pre ++ (k, rv) :: post)).Nodup →
    (∀ p ∈ pre, ∀ w, entsGet lhs p.1 = some w → w.isDict = p.2.isDict) →
    entsGet lhs k = some lv → lv.isDict ≠ rv.isDict →
    ∃ lhs' items, mergeNode lhs [] (pre ++ (k, rv) :: post)
        = (lhs', items, some ⟨[k]⟩) ∧ entsGet lhs' k = some lv := by
  intro pre
  induction pre with
  | nil =>
    intro lhs lv _ _ hk hconf
    refine ⟨lhs, [], ?_, hk⟩
    simp only [List.nil_append, mergeNode, entsGetPath, Option.getD_some, hk]
    have hbne : (lv.isDict != rv.isDict) = true := by
      simpa [bne_iff_ne] using hconf
    simp [hbne]
  | cons p pre' ih =>
    intro lhs lv hnodup hpre hk hconf
    obtain ⟨k₀, v₀⟩ := p
    have hcons : entsKeys ((k₀, v₀) :: (pre' ++ (k, rv) :: post))
        = k₀ :: entsKeys (pre' ++ (k, rv) :: post) := rfl
    rw [List.cons_append] at hnodup
    rw [hcons, List.nodup_cons] at hnodup
    have hk₀ : k₀ ∉ entsKeys (pre' ++ (k, rv) :: post) := hnodup.1
    have hnodup' : (entsKeys (pre' ++ (k, rv) :: post)).Nodup := hnodup.2
    have hk₀k : k₀ ≠ k := by
      intro h
      apply hk₀
      rw [h]
      exact List.mem_map_of_mem Prod.fst
        (List.mem_append_right _ (List.mem_cons_self _ _))
    have hset : ∀ v, entsGet (entsSet lhs k₀ v) k = some lv := by
      intro v
      rw [entsGet_set_ne lhs k₀ k v hk₀k]
      exact hk
    have hpreset : ∀ v, ∀ p ∈ pre', ∀ w,
        entsGet (entsSet lhs k₀ v) p.1 = some w → w.isDict = p.2.isDict := by
      intro v q hq w hw
      have hne : k₀ ≠ q.1 := by
        intro h
        apply hk₀
        rw [h]
        exact List.mem_map_of_mem Prod.fst (List.mem_append_left _ hq)
      rw [entsGet_set_ne lhs k₀ q.1 v hne] at hw
      exact hpre q (List.mem_cons_of_mem _ hq) w hw
    simp only [List.cons_append, mergeNode, entsGetPath, Option.getD_some]
    cases hget : entsGet lhs k₀ with
    | none =>
      simp only [entsSetPath]
      exact ih (entsSet lhs k₀ v₀) lv hnodup' (hpreset v₀)
        (hset v₀) hconf
    | some w =>
      have hshape : w.isDict = v₀.isDict :=
        hpre (k₀, v₀) (List.mem_cons_self _ _) w hget
      have hbne : (w.isDict != v₀.isDict) = false := by
        simp [bne, hshape]
      simp only [hbne, Bool.false_eq_true, if_false]
      by_cases hd : w.isDict = true
      · have hv₀ : v₀.isDict = true := by rw [← hshape]; exact hd
        obtain ⟨s, rfl⟩ : ∃ s, v₀ = Value.vdict s := by
          cases v₀ with
          | vdict s => exact ⟨s, rfl⟩
          | vnull => simp [Value.isDict] at hv₀
          | vint n => simp [Value.isDict] at hv₀
          | vstr t => simp [Value.isDict] at hv₀
          | vlist l => simp [Value.isDict] at hv₀
        obtain ⟨lhs', items, heq, hlv⟩ :=
          ih lhs lv hnodup' (fun q hq => hpre q (List.mem_cons_of_mem _ hq)) hk hconf
        refine ⟨lhs', ([] ++ [k₀], s) :: items, ?_, hlv⟩
        rw [if_pos hd]
        simp only [List.append_eq]
        rw [heq]
      · simp only [hd, if_false, entsSetPath]
        exact ih (entsSet lhs k₀ v₀) lv hnodup' (hpreset v₀) (hset v₀) hconf

/--
C5: when deep-merging a source mapping into a destination mapping whose
shapes agree on every source entry before key `k`, and at `k` exactly
one of the two values is a nested mapping, `Load._merge_dict` fails with
a structural-mismatch error carrying the full key path of the
conflicting key (rendered slash-joined by `ConfigException`), and the
destination still holds its original value at that key.  The final
conjunct exercises the same failure one level down, showing the error
path names the full nested path `a/b` and the destination branch is
untouched.
-/
theorem merge_mismatch_error (lhs pre post : Ents) (k : String) (lv rv : Value)
    (hnodup : (entsKeys (pre ++ (k, rv) :: post)).Nodup)
    (hpre : ∀ p ∈ pre, ∀ w, entsGet lhs p.1 = some w → w.isDict = p.2.isDict)
    (hk : entsGet lhs k = some lv) (hconf : lv.isDict ≠ rv.isDict) :
    (∃ lhs', merge_dict lhs (pre ++ (k, rv) :: post) = (lhs', some ⟨[k]⟩)
      ∧ entsGet lhs' k = some lv)
    ∧ merge_dict [("a", .vdict [("b", .vdict [("x", .vint 1)])])]
        [("a", .vdict [("b", .vint 5)])]
      = ([("a", .vdict [("b", .vdict [("x", .vint 1)])])], some ⟨["a", "b"]⟩) := by
  constructor
  · obtain ⟨lhs', items, heq, hlv⟩ :=
      mergeNode_conflict k rv post pre lhs lv hnodup hpre hk hconf
    refine ⟨lhs', ?_, hlv⟩
    simp only [merge_dict, mergeLoop]
    rw [heq]
  · rfl

/-- Witness for `merge_mismatch_error`: destination has nested mapping
at key `c`, source has the scalar `5` there. -/
theorem merge_mismatch_error_witness :
    (∃ lhs', merge_dict [("c", .vdict [("x", .vint 1)])] ([] ++ ("c", .vint 5) :: [])
        = (lhs', some ⟨["c"]⟩)
      ∧ entsGet lhs' "c" = some (.vdict [("x", .vint 1)]))
    ∧ merge_dict [("a", .vdict [("b", .vdict [("x", .vint 1)])])]
        [("a", .vdict [("b", .vint 5)])]
      = ([("a", .vdict [("b", .vdict [("x", .vint 1)])])], some ⟨["a", "b"]⟩) :=
  merge_mismatch_error [("c", .vdict [("x", .vint 1)])] [] [] "c"
    (.vdict [("x", .vint 1)]) (.vint 5) (by simp [entsKeys])
    (by simp) rfl (by simp [Value.isDict])

theorem load_files_append (xs : List Ents) :
    ∀ (start r : Ents), load_files start xs = (r, none) →
    ∀ ys, load_files start (xs ++ ys) = load_files r ys := by
  induction xs with
  | nil =>
    intro start r h ys
    simp only [load_files, Prod.mk.injEq] at h
    obtain ⟨rfl, -⟩ := h
    simp
  | cons c rest ih =>
    intro start r h ys
    simp only [load_files] at h
    cases hm : merge_dict start c with
    | mk m merr =>
      rw [hm] at h
      cases merr with
      | some e => simp at h
      | none =>
        simp only at h
        show load_files start (c :: (rest ++ ys)) = load_files r ys
        simp only [load_files]
        rw [hm]
        exact ih m r h ys

/--
C8: deep-merge is associative in effect.  Merging the file contents
`A, B` into an empty base (as `Load._load` does) and afterwards merging
`C` into the result yields exactly the same mapping, with no error, as
merging `A, B, C` sequentially into an empty base in one pass.
-/
theorem load_merge_assoc (A B C R S : Ents)
    (h1 : load_files [] [A, B] = (R, none))
    (h2 : load_files R [C] = (S, none)) :
    load_files [] [A, B, C] = (S, none) := by
  have : ([A, B, C] : List Ents) = [A, B] ++ [C] := rfl
  rw [this, load_files_append [A, B] [] R h1 [C]]
  exact h2

/-- Witness for `load_merge_assoc` on three concrete files: `B`
introduces a nested mapping, `C` merges into it and adds a key. -/
theorem load_merge_assoc_witness :
    load_files [] [[("a", .vint 1)], [("b", .vdict [("x", .vint 1)])],
      [("b", .vdict [("y", .vint 2)]), ("c", .vint 3)]]
      = ([("a", .vint 1), ("b", .vdict [("x", .vint 1), ("y", .vint 2)]),
          ("c", .vint 3)], none) :=
  load_merge_assoc [("a", .vint 1)] [("b", .vdict [("x", .vint 1)])]
    [("b", .vdict [("y", .vint 2)]), ("c", .vint 3)]
    [("a", .vint 1), ("b", .vdict [("x", .vint 1)])]
    [("a", .vint 1), ("b", .vdict [("x", .vint 1), ("y", .vint 2)]), ("c", .vint 3)]
    rfl rfl

/--
C2 (code bug): instance-level load is specified (and documented in the
source: `Load` "will load files and merge them into the configuration
instance", via the tree-merging `_merge_dict` and the COW overlay) to
deep-merge file contents over the instance's raw mapping.  But because
`COWDict` is not a `dict` subclass, `isinstance(lh_value, dict)` is
false for every materialized overlay child, so merging a file whose
nested mapping meets an existing nested mapping raises a spurious
`/a: type mismatch` `ConfigException` instead of merging; the same
inputs merge fine through the class-level plain-dict path (second
conjunct), which is the intended behavior.
-/
theorem inst_load_nested_merge_raises :
    inst_load [[("a", .dref 1)], [("x", .hint 1)], [("a", .dref 3)], [("y", .hint 2)]]
        ⟨0, [("a", .hint 42)]⟩ [2]
      = .error (.configErr ⟨["a"]⟩)
    ∧ merge_dict [("a", .vdict [("x", .vint 1)])] [("a", .vdict [("y", .vint 2)])]
      = ([("a", .vdict [("x", .vint 1), ("y", .vint 2)])], none) :=
  ⟨rfl, rfl⟩

theorem strLeb_go_total (xs : List Char) :
    ∀ ys, strLeb.go xs ys = true ∨ strLeb.go ys xs = true := by
  induction xs with
  | nil => intro ys; left; rfl
  | cons x xs ih =>
    intro ys
    cases ys with
    | nil => right; rfl
    | cons y ys =>
      by_cases h1 : x.val.toNat < y.val.toNat
      · left; simp [strLeb.go, h1]
      · by_cases h2 : y.val.toNat < x.val.toNat
        · right; simp [strLeb.go, h2]
        · rcases ih ys with h | h
          · left; simp [strLeb.go, h1, h2, h]
          · right; simp [strLeb.go, h1, h2, h]

theorem strLeb_total (a b : String) : strLeb a b = true ∨ strLeb b a = true :=
  strLeb_go_total a.data b.data

theorem strInsert_perm (s : String) (l : List String) :
    List.Perm (strInsert s l) (s :: l) := by
  induction l with
  | nil => rfl
  | cons t rest ih =>
    by_cases h : strLeb s t
    · simp [strInsert, h]
    · simp only [strInsert, h, Bool.false_eq_true, if_false]
      exact (ih.cons t).trans (List.Perm.swap s t rest)

theorem sortStrings_perm (l : List String) : List.Perm (sortStrings l) l := by
  induction l with
  | nil => rfl
  | cons s rest ih => exact (strInsert_perm s (sortStrings rest)).trans (ih.cons s)

theorem strInsert_chain (s : String) (l : List String)
    (h : List.Chain' (fun a b => strLeb a b = true) l) :
    List.Chain' (fun a b => strLeb a b = true) (strInsert s l) := by
  induction l with
  | nil => simp [strInsert]
  | cons t rest ih =>
    by_cases hst : strLeb s t
    · simp only [strInsert, hst, if_true]
      exact List.Chain'.cons hst h
    · simp only [strInsert, hst, Bool.false_eq_true, if_false]
      have hts : strLeb t s = true := (strLeb_total s t).resolve_left
        (fun hc => hst hc)
      have hrest := ih (List.Chain'.tail h)
      cases hr : rest with
      | nil =>
        simp only [hr, strInsert]
        exact List.chain'_pair.mpr hts
      | cons u rest' =>
        subst hr
        by_cases hsu : strLeb s u
        · simp only [strInsert, hsu, if_true] at hrest ⊢
          exact List.Chain'.cons hts hrest
        · simp only [strInsert, hsu, Bool.false_eq_true, if_false] at hrest ⊢
          have htu : strLeb t u = true := List.chain'_cons.mp h |>.1
          exact List.Chain'.cons htu hrest

theorem sortStrings_chain (l : List String) :
    List.Chain' (fun a b => strLeb a b = true) (sortStrings l) := by
  induction l with
  | nil => simp [sortStrings]
  | cons s rest ih => exact strInsert_chain s (sortStrings rest) ih

theorem mem_sortStrings (l : List String) (k : String) :
    k ∈ sortStrings l ↔ k ∈ l :=
  (sortStrings_perm l).mem_iff

/-! ## Association-list and heap lemmas -/

theorem assocGet_set_self {α : Type} (d : List (String × α)) (k : String) (v : α) :
    assocGet (assocSet d k v) k = some v := by
  induction d with
  | nil => simp [assocSet, assocGet]
  | cons e rest ih =>
    obtain ⟨k', v'⟩ := e
    by_cases h : k' = k
    · simp [assocSet, assocGet, h]
    · simp [assocSet, assocGet, h, ih]

theorem assocGet_set_ne {α : Type} (d : List (String × α)) (k k' : String) (v : α)
    (h : k ≠ k') : assocGet (assocSet d k v) k' = assocGet d k' := by
  induction d with
  | nil => simp [assocSet, assocGet, h]
  | cons e rest ih =>
    obtain ⟨k₀, v₀⟩ := e
    by_cases h₀ : k₀ = k
    · subst h₀
      simp [assocSet, assocGet, h]
    · simp [assocSet, assocGet, h₀, ih]

theorem assocGet_pop_self {α : Type} (d : List (String × α)) (k : String)
    (hd : (d.map Prod.fst).Nodup) : assocGet (assocPop d k) k = none := by
  induction d with
  | nil => simp [assocPop, assocGet]
  | cons e rest ih =>
    obtain ⟨k₀, v₀⟩ := e
    simp only [List.map_cons, List.nodup_cons] at hd
    by_cases h₀ : k₀ = k
    · subst h₀
      simp only [assocPop, if_pos rfl]
      cases hg : assocGet rest k₀ with
      | none => exact hg
      | some w =>
        exfalso
        apply hd.1
        clear ih hd
        induction rest with
        | nil => simp [assocGet] at hg
        | cons e' rest' ih' =>
          obtain ⟨k₁, v₁⟩ := e'
          simp only [assocGet] at hg
          by_cases h₁ : k₁ = k₀
          · simp [h₁]
          · rw [if_neg h₁] at hg
            exact List.mem_cons_of_mem _ (ih' hg)
    · simp only [assocPop, if_neg h₀, assocGet, if_neg h₀]
      exact ih hd.2

theorem assocGet_pop_ne {α : Type} (d : List (String × α)) (k k' : String)
    (h : k ≠ k') : assocGet (assocPop d k) k' = assocGet d k' := by
  induction d with
  | nil => simp [assocPop]
  | cons e rest ih =>
    obtain ⟨k₀, v₀⟩ := e
    by_cases h₀ : k₀ = k
    · subst h₀
      simp [assocPop, assocGet, h]
    · simp [assocPop, assocGet, h₀, ih]

theorem assocGet_mem {α : Type} (d : List (String × α)) (k : String) (v : α)
    (h : assocGet d k = some v) : (k, v) ∈ d := by
  induction d with
  | nil => simp [assocGet] at h
  | cons e rest ih =>
    obtain ⟨k₀, v₀⟩ := e
    simp only [assocGet] at h
    by_cases h₀ : k₀ = k
    · rw [if_pos h₀] at h
      subst h₀
      obtain rfl : v₀ = v := by injection h
      exact List.mem_cons_self _ _
    · rw [if_neg h₀] at h
      exact List.mem_cons_of_mem _ (ih h)

theorem mem_assocGet {α : Type} (d : List (String × α)) (k : String) (v : α)
    (hd : (d.map Prod.fst).Nodup) (h : (k, v) ∈ d) : assocGet d k = some v := by
  induction d with
  | nil => simp at h
  | cons e rest ih =>
    obtain ⟨k₀, v₀⟩ := e
    simp only [List.map_cons, List.nodup_cons] at hd
    rcases List.mem_cons.mp h with heq | hmem
    · obtain ⟨rfl, rfl⟩ := Prod.mk.injEq .. ▸ And.intro (congrArg Prod.fst heq) (congrArg Prod.snd heq)
      simp [assocGet]
    · have hne : k₀ ≠ k := by
        intro hk
        subst hk
        exact hd.1 (List.mem_map_of_mem Prod.fst hmem)
      simp only [assocGet, if_neg hne]
      exact ih hd.2 hmem

theorem keys_assocSet {α : Type} (d : List (String × α)) (k : String) (v : α) :
    ((assocSet d k v).map Prod.fst) = if assocHas d k then d.map Prod.fst
      else d.map Prod.fst ++ [k] := by
  induction d with
  | nil => simp [assocSet, assocHas, assocGet]
  | cons e rest ih =>
    obtain ⟨k₀, v₀⟩ := e
    by_cases h₀ : k₀ = k
    · simp [assocSet, assocHas, assocGet, h₀]
    · simp only [assocSet, if_neg h₀, List.map_cons, assocHas, assocGet, ih,
        Option.isSome_some]
      by_cases hh : assocHas rest k
      · simp [assocHas, assocGet, if_neg h₀] at hh ⊢
        simp [hh]
      · simp [assocHas, assocGet, if_neg h₀] at hh ⊢
        simp [hh]

theorem assocHas_of_mem_keys {α : Type} (d : List (String × α)) (k : String)
    (h : k ∈ d.map Prod.fst) : assocHas d k = true := by
  induction d with
  | nil => simp at h
  | cons e rest ih =>
    obtain ⟨k₀, v₀⟩ := e
    by_cases h₀ : k₀ = k
    · simp [assocHas, assocGet, h₀]
    · simp only [List.map_cons, List.mem_cons] at h
      rcases h with hk | hmem
      · exact absurd hk.symm h₀
      · simp only [assocHas, assocGet, if_neg h₀]
        exact ih hmem

theorem nodup_keys_assocSet {α : Type} (d : List (String × α)) (k : String) (v : α)
    (hd : (d.map Prod.fst).Nodup) : ((assocSet d k v).map Prod.fst).Nodup := by
  rw [keys_assocSet]
  by_cases hh : assocHas d k
  · simpa [hh]
  · rw [if_neg hh]
    rw [List.nodup_append]
    refine ⟨hd, List.nodup_singleton _, ?_⟩
    intro a ha hb
    simp only [List.mem_singleton] at hb
    subst hb
    exact hh (assocHas_of_mem_keys d a ha)

theorem sublist_keys_assocPop {α : Type} (d : List (String × α)) (k : String) :
    ((assocPop d k).map Prod.fst).Sublist (d.map Prod.fst) := by
  induction d with
  | nil => simp [assocPop]
  | cons e rest ih =>
    obtain ⟨k₀, v₀⟩ := e
    by_cases h₀ : k₀ = k
    · simp only [assocPop, if_pos h₀, List.map_cons]
      exact (List.sublist_cons_self _ _)
    · simp only [assocPop, if_neg h₀, List.map_cons]
      exact ih.cons₂ k₀

theorem nodup_keys_assocPop {α : Type} (d : List (String × α)) (k : String)
    (hd : (d.map Prod.fst).Nodup) : ((assocPop d k).map Prod.fst).Nodup :=
  (sublist_keys_assocPop d k).nodup hd

/-- Characterization of `COWDict._apply()` on one dictionary cell: after
the commit, a key reads as its committed override (`none` when
tombstoned), and as its old value when no override was recorded. -/
theorem assocGet_applyNew (new : List (String × Option HVal)) :
    ∀ (d : HEnts), (new.map Prod.fst).Nodup → (d.map Prod.fst).Nodup →
    ∀ k, assocGet (applyNew d new) k =
      (match assocGet new k with
       | some none => none
       | some (some v) => some v
       | none => assocGet d k) := by
  induction new with
  | nil => intro d _ _ k; simp [applyNew, assocGet]
  | cons p rest ih =>
    intro d hnew hd k
    obtain ⟨k₀, ov⟩ := p
    simp only [List.map_cons, List.nodup_cons] at hnew
    have hstep : applyNew d ((k₀, ov) :: rest) =
        applyNew (match ov with
          | none => assocPop d k₀
          | some v => assocSet d k₀ v) rest := by
      cases ov <;> rfl
    rw [hstep]
    have hd' : ((match ov with
        | none => assocPop d k₀
        | some v => assocSet d k₀ v).map Prod.fst).Nodup := by
      cases ov with
      | none => exact nodup_keys_assocPop d k₀ hd
      | some v => exact nodup_keys_assocSet d k₀ v hd
    rw [ih _ hnew.2 hd' k]
    by_cases hk : k₀ = k
    · subst hk
      have hrest : assocGet rest k₀ = none := by
        cases hg : assocGet rest k₀ with
        | none => rfl
        | some w =>
          exact absurd (List.mem_map_of_mem Prod.fst (assocGet_mem rest k₀ w hg))
            hnew.1
      rw [hrest]
      simp only [assocGet, if_pos rfl]
      cases ov with
      | none => simp [assocGet_pop_self d k₀ hd]
      | some v => simp [assocGet_set_self]
    · have hhead : assocGet ((k₀, ov) :: rest) k = assocGet rest k := by
        simp [assocGet, hk]
      rw [hhead]
      cases hg : assocGet rest k with
      | some w => cases w <;> rfl
      | none =>
        cases ov with
        | none => simp [assocGet_pop_ne d k₀ k hk]
        | some v => simp [assocGet_set_ne d k₀ k v hk]

theorem heapGet_heapSet_self (h : Heap) (i : Nat) (d : HEnts)
    (hi : i < h.length) : heapGet (heapSet h i d) i = d := by
  simp [heapGet, heapSet, List.getD, List.getElem?_set_self hi]

theorem heapGet_heapSet_ne (h : Heap) (i j : Nat) (d : HEnts) (hij : i ≠ j) :
    heapGet (heapSet h i d) j = heapGet h j := by
  simp [heapGet, heapSet, List.getD, List.getElem?_set_ne hij]

theorem getCow_putCow_self (st : CowState) (cid : Nat) (n : COWDict)
    (h : cid < st.cows.length) : getCow (putCow st cid n) cid = n := by
  simp [getCow, putCow, List.getD, List.getElem?_set_self h]

theorem getCow_putCow_ne (st : CowState) (cid cid' : Nat) (n : COWDict)
    (h : cid ≠ cid') : getCow (putCow st cid n) cid' = getCow st cid' := by
  simp [getCow, putCow, List.getD, List.getElem?_set_ne h]

/-- The tombstone-skipping predicate of `COWDict.__iter__`. -/
theorem iter_pred_false_iff (new : List (String × Option HVal)) (k : String) :
    (match assocGet new k with
     | some none => false
     | _ => true) = false ↔ assocGet new k = some none := by
  cases h : assocGet new k with
  | none => simp
  | some ov => cases ov <;> simp

theorem length_filter_split {α : Type} (l : List α) (p : α → Bool) :
    l.length = (l.filter p).length + (l.filter (fun x => !(p x))).length := by
  induction l with
  | nil => simp
  | cons a t ih =>
    by_cases h : p a = true
    · simp [List.filter_cons, h]
      omega
    · have hf : p a = false := by
        cases hb : p a
        · rfl
        · exact absurd hb h
      simp [List.filter_cons, hf]
      omega

/-- The reported length of a COW node (`__len__`) equals the number of
keys its iteration (`__iter__`) yields: every tombstone in `_new` hides
exactly one merged key. -/
theorem cow_len_counts_iter (orig : HEnts) (new : List (String × Option HVal))
    (hnew : (new.map Prod.fst).Nodup) :
    ((orig.map Prod.fst ++ new.map Prod.fst).dedup).length
        - (new.filter (fun p => p.2.isNone)).length
      = (((orig.map Prod.fst ++ new.map Prod.fst).dedup).filter
          (fun k => match assocGet new k with
                    | some none => false
                    | _ => true)).length := by
  have hks : ((orig.map Prod.fst ++ new.map Prod.fst).dedup).Nodup :=
    List.nodup_dedup _
  have hsplit := length_filter_split ((orig.map Prod.fst ++ new.map Prod.fst).dedup)
    (fun k => match assocGet new k with
              | some none => false
              | _ => true)
  have hcount : (new.filter (fun p => p.2.isNone)).length
      = (((orig.map Prod.fst ++ new.map Prod.fst).dedup).filter
          (fun k => !(match assocGet new k with
                      | some none => false
                      | _ => true))).length := by
    have hsub : ((new.filter (fun p => p.2.isNone)).map Prod.fst).Sublist
        (new.map Prod.fst) := (List.filter_sublist _).map Prod.fst
    have hBnodup : ((new.filter (fun p => p.2.isNone)).map Prod.fst).Nodup :=
      hnew.sublist hsub
    have hAnodup := hks.filter
      (fun k => !(match assocGet new k with
                  | some none => false
                  | _ => true))
    have hperm : List.Perm ((new.filter (fun p => p.2.isNone)).map Prod.fst)
        (((orig.map Prod.fst ++ new.map Prod.fst).dedup).filter
            (fun k => !(match assocGet new k with
                        | some none => false
                        | _ => true))) := by
      rw [List.perm_ext_iff_of_nodup hBnodup hAnodup]
      intro a
      constructor
      · intro ha
        obtain ⟨p, hp, rfl⟩ := List.mem_map.mp ha
        obtain ⟨hpmem, hpnone⟩ := List.mem_filter.mp hp
        obtain ⟨k, ov⟩ := p
        cases ov with
        | some v => simp at hpnone
        | none =>
          rw [List.mem_filter]
          constructor
          · rw [List.mem_dedup]
            exact List.mem_append_right _ (List.mem_map_of_mem Prod.fst hpmem)
          · rw [Bool.not_eq_true']
            exact (iter_pred_false_iff new k).mpr
              (mem_assocGet new k none hnew hpmem)
      · intro ha
        obtain ⟨hmem, hnp⟩ := List.mem_filter.mp ha
        rw [Bool.not_eq_true'] at hnp
        have htomb : assocGet new a = some none :=
          (iter_pred_false_iff new a).mp hnp
        have hin : (a, (none : Option HVal)) ∈ new := assocGet_mem _ _ _ htomb
        refine List.mem_map.mpr ⟨(a, none), List.mem_filter.mpr ⟨hin, ?_⟩, rfl⟩
        simp
    have hlen := hperm.length_eq
    simpa using hlen
  omega

/--
C6: COW overlay override bookkeeping.  Setting a key to a value that
compares equal (Python `==`, rendered by `hvalEq`) to the original
mapping's value removes any pending override for it; deleting a key
absent from the original mapping merely drops any pending override,
recording no tombstone; deleting a key present in the original mapping
records an `_unset` tombstone; and every tombstoned key is excluded
from iteration and from the reported length (the length always equals
the number of keys iteration yields).
-/
theorem cow_override_semantics (st : CowState) (cid : Nat)
    (hcid : cid < st.cows.length)
    (hnew : ((getCow st cid).new.map Prod.fst).Nodup) :
    (∀ k v w, assocGet (heapGet st.heap (getCow st cid).orig) k = some w →
      hvalEq st.heap w v = true →
      assocGet (getCow (cow_setitem st cid k v) cid).new k = none)
    ∧ (∀ k, assocGet (heapGet st.heap (getCow st cid).orig) k = none →
      assocGet (getCow (cow_delitem st cid k) cid).new k = none)
    ∧ (∀ k w, assocGet (heapGet st.heap (getCow st cid).orig) k = some w →
      assocGet (getCow (cow_delitem st cid k) cid).new k = some none)
    ∧ (∀ k, assocGet (getCow st cid).new k = some none → k ∉ cow_iter st cid)
    ∧ cow_len st cid = (cow_iter st cid).length := by
  refine ⟨?_, ?_, ?_, ?_, ?_⟩
  · intro k v w hw heq
    unfold cow_setitem
    simp only [hw, heq, if_true]
    rw [getCow_putCow_self _ _ _ (by simpa [putCow] using hcid)]
    exact assocGet_pop_self _ k hnew
  · intro k hnone
    unfold cow_delitem
    simp only [assocHas, hnone, Option.isSome_none, Bool.false_eq_true, if_false]
    rw [getCow_putCow_self _ _ _ (by simpa [putCow] using hcid)]
    exact assocGet_pop_self _ k hnew
  · intro k w hw
    unfold cow_delitem
    simp only [assocHas, hw, Option.isSome_some, if_true]
    rw [getCow_putCow_self _ _ _ (by simpa [putCow] using hcid)]
    exact assocGet_set_self _ k none
  · intro k htomb hmem
    unfold cow_iter at hmem
    have := (List.mem_filter.mp hmem).2
    rw [(iter_pred_false_iff (getCow st cid).new k).mpr htomb] at this
    exact Bool.false_ne_true this
  · exact cow_len_counts_iter (heapGet st.heap (getCow st cid).orig)
      (getCow st cid).new hnew

/-! ### `COWDict.apply()` (claim C4) -/

theorem cows_cow_apply_one (st : CowState) (cid : Nat) :
    (cow_apply_one st cid).cows = st.cows := rfl

theorem getCow_cow_apply_one (st : CowState) (cid x : Nat) :
    getCow (cow_apply_one st cid) x = getCow st x := rfl

theorem heap_length_cow_apply_one (st : CowState) (cid : Nat) :
    (cow_apply_one st cid).heap.length = st.heap.length := by
  simp [cow_apply_one, heapSet]

theorem heap_cow_apply_one_self (st : CowState) (cid : Nat)
    (h : (getCow st cid).orig < st.heap.length) :
    heapGet (cow_apply_one st cid).heap (getCow st cid).orig
      = applyNew (heapGet st.heap (getCow st cid).orig) (getCow st cid).new :=
  heapGet_heapSet_self _ _ _ h

theorem heap_cow_apply_one_ne (st : CowState) (cid : Nat) (j : Nat)
    (h : j ≠ (getCow st cid).orig) :
    heapGet (cow_apply_one st cid).heap j = heapGet st.heap j :=
  heapGet_heapSet_ne _ _ _ _ (fun he => h he.symm)

/-- Effect of the `for child in self._children: child._apply()` loop of
`COWDict.apply()`: with pairwise-distinct original cells, every listed
node's cell receives exactly its own committed overrides, other cells
are untouched, and no COW-node state changes. -/
theorem foldl_cow_apply_one (cs : List Nat) :
    ∀ (st : CowState),
    (cs.map (fun c => (getCow st c).orig)).Nodup →
    (∀ c ∈ cs, (getCow st c).orig < st.heap.length) →
    (cs.foldl cow_apply_one st).cows = st.cows
    ∧ (cs.foldl cow_apply_one st).heap.length = st.heap.length
    ∧ (∀ j, j ∉ cs.map (fun c => (getCow st c).orig) →
        heapGet (cs.foldl cow_apply_one st).heap j = heapGet st.heap j)
    ∧ (∀ c ∈ cs, heapGet (cs.foldl cow_apply_one st).heap (getCow st c).orig
        = applyNew (heapGet st.heap (getCow st c).orig) (getCow st c).new) := by
  induction cs with
  | nil =>
    intro st _ _
    exact ⟨rfl, rfl, fun j _ => rfl, fun c hc => absurd hc (by simp)⟩
  | cons c cs ih =>
    intro st hnodup hvalid
    have hmapeq : cs.map (fun x => (getCow (cow_apply_one st c) x).orig)
        = cs.map (fun x => (getCow st x).orig) := by
      simp [getCow_cow_apply_one]
    rw [List.map_cons, List.nodup_cons] at hnodup
    have hco : (getCow st c).orig ∉ cs.map (fun x => (getCow st x).orig) := hnodup.1
    have ihres := ih (cow_apply_one st c)
      (by rw [hmapeq]; exact hnodup.2)
      (by
        intro x hx
        rw [getCow_cow_apply_one, heap_length_cow_apply_one]
        exact hvalid x (List.mem_cons_of_mem _ hx))
    obtain ⟨ihcows, ihlen, ihframe, ihcommit⟩ := ihres
    have hfold : (c :: cs).foldl cow_apply_one st
        = cs.foldl cow_apply_one (cow_apply_one st c) := rfl
    refine ⟨?_, ?_, ?_, ?_⟩
    · rw [hfold, ihcows, cows_cow_apply_one]
    · rw [hfold, ihlen, heap_length_cow_apply_one]
    · intro j hj
      rw [List.map_cons, List.mem_cons] at hj
      push_neg at hj
      rw [hfold]
      have h1 := ihframe j (by rw [hmapeq]; exact hj.2)
      rw [h1]
      exact heap_cow_apply_one_ne st c j hj.1
    · intro x hx
      rcases List.mem_cons.mp hx with rfl | hmem
      · rw [hfold]
        have h1 := ihframe (getCow st x).orig
          (by rw [hmapeq]; exact hco)
        rw [h1]
        exact heap_cow_apply_one_self st x (hvalid x (List.mem_cons_self _ _))
      · have h1 := ihcommit x hmem
        rw [getCow_cow_apply_one] at h1
        rw [hfold, h1]
        congr 1
        exact heap_cow_apply_one_ne st c (getCow st x).orig
          (by
            intro he
            apply hco
            rw [← he]
            exact List.mem_map_of_mem _ hmem)

/--
C4 (amended): calling `apply()` on the root of a COW transaction whose
original cells are pairwise distinct commits every recorded override
into the original mapping tree — writing real values, removing
tombstoned keys — for the root and every child node registered under
the transaction, in one call; afterwards the override and
materialized-child state of the ROOT node is cleared, while every child
node's state is left exactly as it was (the source clears `_new`,
`_lookaside` and `_children` only on `self`).
-/
theorem cow_apply_commits_and_clears_root_only
    (st : CowState) (r : Nat)
    (hr : r < st.cows.length)
    (horigs : ((getCow st r).orig ::
        (getCow st r).children.map (fun c => (getCow st c).orig)).Nodup)
    (hvalid : (getCow st r).orig < st.heap.length ∧
        ∀ c ∈ (getCow st r).children, (getCow st c).orig < st.heap.length)
    (hnodups : (((getCow st r).new.map Prod.fst).Nodup ∧
        ((heapGet st.heap (getCow st r).orig).map Prod.fst).Nodup) ∧
        ∀ c ∈ (getCow st r).children,
          ((getCow st c).new.map Prod.fst).Nodup ∧
          ((heapGet st.heap (getCow st c).orig).map Prod.fst).Nodup) :
    committedAt st (cow_apply st r) (getCow st r)
    ∧ (∀ c ∈ (getCow st r).children, committedAt st (cow_apply st r) (getCow st c))
    ∧ getCow (cow_apply st r) r
        = { getCow st r with new := [], lookaside := [], children := [] }
    ∧ (∀ c ∈ (getCow st r).children, c ≠ r →
        getCow (cow_apply st r) c = getCow st c) := by
  rw [List.nodup_cons] at horigs
  have hfold := foldl_cow_apply_one (getCow st r).children (cow_apply_one st r)
    (by simpa [getCow_cow_apply_one] using horigs.2)
    (by
      intro c hc
      rw [getCow_cow_apply_one, heap_length_cow_apply_one]
      exact hvalid.2 c hc)
  obtain ⟨hcows, hlen, hframe, hcommit⟩ := hfold
  have happly : cow_apply st r
      = putCow ((getCow st r).children.foldl cow_apply_one (cow_apply_one st r)) r
        { getCow ((getCow st r).children.foldl cow_apply_one (cow_apply_one st r)) r
          with new := [], lookaside := [], children := [] } := rfl
  have hst₂cow : ∀ x,
      getCow ((getCow st r).children.foldl cow_apply_one (cow_apply_one st r)) x
        = getCow st x := by
    intro x
    show ((getCow st r).children.foldl cow_apply_one (cow_apply_one st r)).cows.getD
        x cowDefault = st.cows.getD x cowDefault
    rw [hcows, cows_cow_apply_one]
  have hheap : (cow_apply st r).heap
      = ((getCow st r).children.foldl cow_apply_one (cow_apply_one st r)).heap := rfl
  refine ⟨?_, ?_, ?_, ?_⟩
  · intro k
    rw [hheap]
    have h1 := hframe (getCow st r).orig
      (by simpa [getCow_cow_apply_one] using horigs.1)
    rw [h1, heap_cow_apply_one_self st r hvalid.1]
    exact assocGet_applyNew (getCow st r).new _ hnodups.1.1 hnodups.1.2 k
  · intro c hc k
    rw [hheap]
    have h1 := hcommit c (by simpa [getCow_cow_apply_one] using hc)
    rw [getCow_cow_apply_one] at h1
    rw [h1]
    have h2 : heapGet (cow_apply_one st r).heap (getCow st c).orig
        = heapGet st.heap (getCow st c).orig := by
      apply heap_cow_apply_one_ne
      intro he
      apply horigs.1
      rw [← he]
      exact List.mem_map_of_mem _ hc
    rw [h2]
    exact assocGet_applyNew (getCow st c).new _ (hnodups.2 c hc).1
      (hnodups.2 c hc).2 k
  · rw [happly]
    rw [getCow_putCow_self _ _ _ (by simpa [hcows, cows_cow_apply_one] using hr)]
    rw [hst₂cow r]
  · intro c hc hne
    rw [happly, getCow_putCow_ne _ _ _ _ (fun he => hne he.symm)]
    exact hst₂cow c

/-- Witness for `cow_apply_commits_and_clears_root_only` at the concrete
two-level transaction. -/
theorem cow_apply_commits_and_clears_root_only_witness :
    committedAt cowApplyWitnessState (cow_apply cowApplyWitnessState 0)
      (getCow cowApplyWitnessState 0)
    ∧ (∀ c ∈ (getCow cowApplyWitnessState 0).children,
        committedAt cowApplyWitnessState (cow_apply cowApplyWitnessState 0)
          (getCow cowApplyWitnessState c))
    ∧ getCow (cow_apply cowApplyWitnessState 0) 0
        = { getCow cowApplyWitnessState 0 with
            new := [], lookaside := [], children := [] }
    ∧ (∀ c ∈ (getCow cowApplyWitnessState 0).children, c ≠ 0 →
        getCow (cow_apply cowApplyWitnessState 0) c = getCow cowApplyWitnessState c) :=
  cow_apply_commits_and_clears_root_only cowApplyWitnessState 0
    (by decide) (by decide) (by decide) (by decide)

/--
C4 (counterexample to the claim as stated): in the same two-level
transaction, `apply()` on the root does commit the child's override
`y = 2` into the nested original dictionary, but afterwards the child
node still carries its `_new` override — the claim that "all override
and materialized-child state on every node of the transaction is
cleared" is false for every node other than the root.
-/
theorem cow_apply_child_state_not_cleared :
    heapGet (cow_apply cowApplyWitnessState 0).heap 1
      = [("x", .hint 1), ("y", .hint 2)]
    ∧ (getCow (cow_apply cowApplyWitnessState 0) 1).new
      = [("y", some (.hint 2))]
    ∧ [("y", some (HVal.hint 2))] ≠ ([] : List (String × Option HVal)) :=
  ⟨rfl, rfl, fun h => List.cons_ne_nil _ _ h⟩

theorem assocGet_map_snd {α β : Type} (d : List (String × α)) (f : α → β)
    (k : String) :
    assocGet (d.map (fun p => (p.1, f p.2))) k = (assocGet d k).map f := by
  induction d with
  | nil => simp [assocGet]
  | cons e rest ih =>
    obtain ⟨k₀, v₀⟩ := e
    by_cases h : k₀ = k
    · simp [assocGet, h]
    · simp [assocGet, h, ih]

/-- Invariants of the `ConfigMeta.__new__` namespace loop: source keys
stay duplicate-free, the key registry gains exactly one entry per
wrapped field, existing entries persist, every declared field is
registered under its derived source key, and every registry entry stems
from a declared field. -/
theorem config_meta_invariants (ns : List (String × NsVal)) :
    ∀ acc info, config_meta_new ns acc = .ok info →
    ((acc.keys.map Prod.fst).Nodup → (info.keys.map Prod.fst).Nodup)
    ∧ info.keys.length = acc.keys.length + ns.countP isField
    ∧ (∀ k b, assocGet acc.keys k = some b → assocGet info.keys k = some b)
    ∧ (∀ attr o, (attr, NsVal.child o) ∈ ns → startsWithUnderscore attr = false →
        assocGet info.keys (derivedKey attr o)
          = some ⟨attr, derivedKey attr o, o⟩)
    ∧ (∀ k b, assocGet info.keys k = some b →
        assocGet acc.keys k = some b
        ∨ ((b.attr, NsVal.child b.option) ∈ ns
            ∧ startsWithUnderscore b.attr = false
            ∧ derivedKey b.attr b.option = k)) := by
  induction ns with
  | nil =>
    intro acc info h
    simp only [config_meta_new] at h
    obtain rfl : acc = info := by injection h
    refine ⟨id, by simp [isField], fun k b hb => hb, ?_, fun k b hb => .inl hb⟩
    intro attr o hmem
    simp at hmem
  | cons item rest ih =>
    intro acc info h
    obtain ⟨attr, v⟩ := item
    simp only [config_meta_new] at h
    by_cases hres : RESERVED.contains attr
    · rw [if_pos hres] at h
      cases h
    rw [if_neg hres] at h
    by_cases hsch : attr = "__schema__"
    · rw [if_pos hsch] at h
      cases v with
      | schemaDict d =>
        obtain ⟨h1, h2, h3, h4, h5⟩ := ih _ info h
        refine ⟨h1, ?_, h3, ?_, ?_⟩
        · rw [h2, List.countP_cons]
          simp [isField]
        · intro a o hmem hund
          rcases List.mem_cons.mp hmem with heq | hmem'
          · exact absurd (congrArg Prod.snd heq) (by simp)
          · exact h4 a o hmem' hund
        · intro k b hb
          rcases h5 k b hb with hacc | hrest
          · exact .inl hacc
          · exact .inr ⟨List.mem_cons_of_mem _ hrest.1, hrest.2.1, hrest.2.2⟩
      | child o => cases h
      | other => cases h
    rw [if_neg hsch] at h
    cases v with
    | child o =>
      dsimp only at h
      by_cases hund : startsWithUnderscore attr
      · rw [if_pos hund] at h
        obtain ⟨h1, h2, h3, h4, h5⟩ := ih _ info h
        refine ⟨h1, ?_, h3, ?_, ?_⟩
        · rw [h2, List.countP_cons]
          simp [isField, hund]
        · intro a o' hmem hund'
          rcases List.mem_cons.mp hmem with heq | hmem'
          · obtain rfl : a = attr := congrArg Prod.fst heq
            exact absurd hund' (by simp [hund])
          · exact h4 a o' hmem' hund'
        · intro k b hb
          rcases h5 k b hb with hacc | hrest
          · exact .inl hacc
          · exact .inr ⟨List.mem_cons_of_mem _ hrest.1, hrest.2.1, hrest.2.2⟩
      · rw [if_neg hund] at h
        by_cases hdup : assocHas acc.keys (derivedKey attr o)
        · rw [if_pos hdup] at h
          cases h
        rw [if_neg hdup] at h
        obtain ⟨h1, h2, h3, h4, h5⟩ := ih _ info h
        have hkeyset : ∀ k b, assocGet acc.keys k = some b →
            assocGet (assocSet acc.keys (derivedKey attr o)
              ⟨attr, derivedKey attr o, o⟩) k = some b := by
          intro k b hb
          have hne : derivedKey attr o ≠ k := by
            intro he
            rw [he] at hdup
            exact hdup (by simp [assocHas, hb])
          rw [assocGet_set_ne _ _ _ _ hne]
          exact hb
        refine ⟨?_, ?_, ?_, ?_, ?_⟩
        · intro hacc
          exact h1 (nodup_keys_assocSet _ _ _ hacc)
        · rw [h2, List.countP_cons]
          have hlen : (assocSet acc.keys (derivedKey attr o)
              ⟨attr, derivedKey attr o, o⟩).length = acc.keys.length + 1 := by
            have hkeys := keys_assocSet acc.keys (derivedKey attr o)
              (⟨attr, derivedKey attr o, o⟩ : BindingE)
            rw [if_neg hdup] at hkeys
            have := congrArg List.length hkeys
            simpa using this
          rw [hlen]
          simp [isField, hund]
          omega
        · intro k b hb
          exact h3 k b (hkeyset k b hb)
        · intro a o' hmem hund'
          rcases List.mem_cons.mp hmem with heq | hmem'
          · obtain rfl : a = attr := congrArg Prod.fst heq
            obtain rfl : o' = o := by
              have h2 := congrArg Prod.snd heq
              simpa using h2
            exact h3 _ _ (assocGet_set_self _ _ _)
          · exact h4 a o' hmem' hund'
        · intro k b hb
          rcases h5 k b hb with hacc | hrest
          · by_cases hk : derivedKey attr o = k
            · subst hk
              rw [assocGet_set_self] at hacc
              obtain rfl : (⟨attr, derivedKey attr o, o⟩ : BindingE) = b := by
                injection hacc
              exact .inr ⟨List.mem_cons_self _ _, by simpa using hund, rfl⟩
            · rw [assocGet_set_ne _ _ _ _ hk] at hacc
              exact .inl hacc
          · exact .inr ⟨List.mem_cons_of_mem _ hrest.1, hrest.2.1, hrest.2.2⟩
    | schemaDict d =>
      obtain ⟨h1, h2, h3, h4, h5⟩ := ih _ info h
      refine ⟨h1, ?_, h3, ?_, ?_⟩
      · rw [h2, List.countP_cons]
        simp [isField]
      · intro a o' hmem hund'
        rcases List.mem_cons.mp hmem with heq | hmem'
        · exact absurd (congrArg Prod.snd heq) (by simp)
        · exact h4 a o' hmem' hund'
      · intro k b hb
        rcases h5 k b hb with hacc | hrest
        · exact .inl hacc
        · exact .inr ⟨List.mem_cons_of_mem _ hrest.1, hrest.2.1, hrest.2.2⟩
    | other =>
      obtain ⟨h1, h2, h3, h4, h5⟩ := ih _ info h
      refine ⟨h1, ?_, h3, ?_, ?_⟩
      · rw [h2, List.countP_cons]
        simp [isField]
      · intro a o' hmem hund'
        rcases List.mem_cons.mp hmem with heq | hmem'
        · exact absurd (congrArg Prod.snd heq) (by simp)
        · exact h4 a o' hmem' hund'
      · intro k b hb
        rcases h5 k b hb with hacc | hrest
        · exact .inl hacc
        · exact .inr ⟨List.mem_cons_of_mem _ hrest.1, hrest.2.1, hrest.2.2⟩

/--
C1 (counterexample to the claim as stated): a node declaring one field
named `a` whose `Option` carries the source-key override `b` generates
a schema whose `properties` holds its single entry under the SOURCE KEY
`b` — there is no entry under the declared field name `a` — and whose
`required` list holds the source key `b`, not the field name:
`Schema.__get__` iterates `cls._keys`, which is keyed by source key.
-/
theorem schema_keyed_by_field_name_counterexample :
    (configMetaNew [("a", NsVal.child ⟨some "b", none, .vdict []⟩)]).map
        (fun info => schema_get none info)
      = .ok [("type", .vstr "object"),
             ("properties", .vdict [("b", .vdict [])]),
             ("required", .vlist [.vstr "b"])]
    ∧ assocGet [(("b" : String), Value.vdict [])] "a" = none :=
  ⟨rfl, rfl⟩

/--
C1 (amended): for every composed schema node, the generated schema
document has one entry in `properties` per declared field, keyed by the
field's SOURCE KEY (the `__key__` override when given and truthy, else
the field name), whose value is that field's generated schema; and its
`required` entry is the sorted list of SOURCE KEYS of the fields whose
descriptor lacks a default.
-/
theorem config_schema_properties_and_required (ns : List (String × NsVal))
    (doc : Option String) (info : NodeInfo)
    (hok : configMetaNew ns = .ok info) :
    (∃ props : List (String × Value),
      assocGet (schema_get doc info) "properties" = some (.vdict props)
      ∧ props.length = ns.countP isField
      ∧ (∀ attr o, (attr, NsVal.child o) ∈ ns → startsWithUnderscore attr = false →
          assocGet props (derivedKey attr o) = some o.schema))
    ∧ (∃ req : List String,
      assocGet (schema_get doc info) "required" = some (.vlist (req.map Value.vstr))
      ∧ List.Chain' (fun a b => strLeb a b = true) req
      ∧ (∀ k, k ∈ req ↔ ∃ attr o, (attr, NsVal.child o) ∈ ns
          ∧ startsWithUnderscore attr = false
          ∧ derivedKey attr o = k ∧ o.default = none)) := by
  obtain ⟨h1, h2, h3, h4, h5⟩ := config_meta_invariants ns _ info hok
  have hnodup : (info.keys.map Prod.fst).Nodup := h1 (by simp)
  have hprops : assocGet (schema_get doc info) "properties"
      = some (.vdict (info.keys.map (fun p => (p.1, p.2.option.schema)))) := by
    simp only [schema_get]
    rw [assocGet_set_ne _ _ _ _ (by decide), assocGet_set_self]
  have hreq : assocGet (schema_get doc info) "required"
      = some (.vlist ((sortStrings ((info.keys.filter
          (fun p => p.2.option.default.isNone)).map Prod.fst)).map Value.vstr)) := by
    simp only [schema_get]
    rw [assocGet_set_self]
  refine ⟨⟨_, hprops, ?_, ?_⟩, ⟨_, hreq, sortStrings_chain _, ?_⟩⟩
  · rw [List.length_map]
    simpa using h2
  · intro attr o hmem hund
    rw [assocGet_map_snd info.keys (fun b => b.option.schema),
      h4 attr o hmem hund]
    rfl
  · intro k
    rw [mem_sortStrings]
    constructor
    · intro hk
      obtain ⟨p, hp, rfl⟩ := List.mem_map.mp hk
      obtain ⟨hpmem, hpnone⟩ := List.mem_filter.mp hp
      have hget : assocGet info.keys p.1 = some p.2 :=
        mem_assocGet _ _ _ hnodup hpmem
      rcases h5 p.1 p.2 hget with hacc | ⟨hmem, hund, hkey⟩
      · simp [assocGet] at hacc
      · exact ⟨p.2.attr, p.2.option, hmem, hund, hkey,
          Option.isNone_iff_eq_none.mp hpnone⟩
    · rintro ⟨attr, o, hmem, hund, rfl, hdef⟩
      have hget := h4 attr o hmem hund
      have hmem' : (derivedKey attr o,
          (⟨attr, derivedKey attr o, o⟩ : BindingE)) ∈ info.keys :=
        assocGet_mem _ _ _ hget
      refine List.mem_map.mpr ⟨(derivedKey attr o, ⟨attr, derivedKey attr o, o⟩),
        List.mem_filter.mpr ⟨hmem', ?_⟩, rfl⟩
      simp [hdef]

/-- Witness for `config_schema_properties_and_required` on the concrete
two-field node. -/
theorem config_schema_properties_and_required_witness :
    (∃ props : List (String × Value),
      assocGet (schema_get (some "Demo config.") schemaWitnessInfo) "properties"
        = some (.vdict props)
      ∧ props.length = schemaWitnessNs.countP isField
      ∧ (∀ attr o, (attr, NsVal.child o) ∈ schemaWitnessNs →
          startsWithUnderscore attr = false →
          assocGet props (derivedKey attr o) = some o.schema))
    ∧ (∃ req : List String,
      assocGet (schema_get (some "Demo config.") schemaWitnessInfo) "required"
        = some (.vlist (req.map Value.vstr))
      ∧ List.Chain' (fun a b => strLeb a b = true) req
      ∧ (∀ k, k ∈ req ↔ ∃ attr o, (attr, NsVal.child o) ∈ schemaWitnessNs
          ∧ startsWithUnderscore attr = false
          ∧ derivedKey attr o = k ∧ o.default = none)) :=
  config_schema_properties_and_required schemaWitnessNs (some "Demo config.")
    schemaWitnessInfo rfl

theorem enqueueParents_spec {n : Nat} (ps : List (Fin n)) :
    ∀ (seen : Finset (Fin n)) (queue : List (Fin n)),
    (∀ x ∈ queue, x ∈ (enqueueParents seen queue ps).2)
    ∧ (∀ x ∈ (enqueueParents seen queue ps).2, x ∈ queue ∨ (x ∈ ps ∧ x ∉ seen))
    ∧ (∀ x ∈ seen, x ∈ (enqueueParents seen queue ps).1)
    ∧ (∀ x ∈ ps, x ∈ (enqueueParents seen queue ps).1)
    ∧ (∀ x, x ∈ (enqueueParents seen queue ps).1 →
        x ∈ seen ∨ x ∈ (enqueueParents seen queue ps).2) := by
  induction ps with
  | nil =>
    intro seen queue
    exact ⟨fun x hx => hx, fun x hx => .inl hx, fun x hx => hx,
      fun x hx => absurd hx (by simp), fun x hx => .inl hx⟩
  | cons p rest ih =>
    intro seen queue
    by_cases hp : p ∈ seen
    · obtain ⟨i1, i2, i3, i4, i5⟩ := ih seen queue
      rw [show enqueueParents seen queue (p :: rest)
          = enqueueParents seen queue rest by simp [enqueueParents, hp]]
      refine ⟨i1, ?_, i3, ?_, i5⟩
      · intro x hx
        rcases i2 x hx with h | h
        · exact .inl h
        · exact .inr ⟨List.mem_cons_of_mem _ h.1, h.2⟩
      · intro x hx
        rcases List.mem_cons.mp hx with rfl | hx'
        · exact i3 x hp
        · exact i4 x hx'
    · obtain ⟨i1, i2, i3, i4, i5⟩ := ih (insert p seen) (queue ++ [p])
      rw [show enqueueParents seen queue (p :: rest)
          = enqueueParents (insert p seen) (queue ++ [p]) rest by
            simp [enqueueParents, hp]]
      refine ⟨?_, ?_, ?_, ?_, ?_⟩
      · intro x hx
        exact i1 x (List.mem_append_left _ hx)
      · intro x hx
        rcases i2 x hx with h | h
        · rcases List.mem_append.mp h with h' | h'
          · exact .inl h'
          · simp only [List.mem_singleton] at h'
            subst h'
            exact .inr ⟨List.mem_cons_self _ _, hp⟩
        · refine .inr ⟨List.mem_cons_of_mem _ h.1, fun hc => h.2 ?_⟩
          exact Finset.mem_insert_of_mem hc
      · intro x hx
        exact i3 x (Finset.mem_insert_of_mem hx)
      · intro x hx
        rcases List.mem_cons.mp hx with rfl | hx'
        · exact i3 x (Finset.mem_insert_self _ _)
        · exact i4 x hx'
      · intro x hx
        rcases i5 x hx with h | h
        · rcases Finset.mem_insert.mp h with rfl | h'
          · exact .inr (i1 x (List.mem_append_right _ (List.mem_singleton.mpr rfl)))
          · exact .inl h'
        · exact .inr h

theorem enqueueParents_nodup {n : Nat} (ps : List (Fin n)) :
    ∀ (seen : Finset (Fin n)) (queue : List (Fin n)),
    queue.Nodup → (∀ x ∈ queue, x ∈ seen) →
    (enqueueParents seen queue ps).2.Nodup
    ∧ (∀ x ∈ (enqueueParents seen queue ps).2,
        x ∈ (enqueueParents seen queue ps).1) := by
  induction ps with
  | nil =>
    intro seen queue hnd hsub
    exact ⟨hnd, hsub⟩
  | cons p rest ih =>
    intro seen queue hnd hsub
    by_cases hp : p ∈ seen
    · rw [show enqueueParents seen queue (p :: rest)
          = enqueueParents seen queue rest by simp [enqueueParents, hp]]
      exact ih seen queue hnd hsub
    · rw [show enqueueParents seen queue (p :: rest)
          = enqueueParents (insert p seen) (queue ++ [p]) rest by
            simp [enqueueParents, hp]]
      refine ih (insert p seen) (queue ++ [p]) ?_ ?_
      · rw [List.nodup_append]
        refine ⟨hnd, List.nodup_singleton _, ?_⟩
        intro a ha hb
        simp only [List.mem_singleton] at hb
        subst hb
        exact hp (hsub a ha)
      · intro x hx
        rcases List.mem_append.mp hx with h | h
        · exact Finset.mem_insert_of_mem (hsub x h)
        · simp only [List.mem_singleton] at h
          subst h
          exact Finset.mem_insert_self _ _

theorem enqueueParents_potential {n : Nat} (ps : List (Fin n)) :
    ∀ (seen : Finset (Fin n)) (queue : List (Fin n)),
    (enqueueParents seen queue ps).2.length
        + (n - (enqueueParents seen queue ps).1.card)
      ≤ queue.length + (n - seen.card) := by
  induction ps with
  | nil => intro seen queue; exact le_refl _
  | cons p rest ih =>
    intro seen queue
    by_cases hp : p ∈ seen
    · rw [show enqueueParents seen queue (p :: rest)
          = enqueueParents seen queue rest by simp [enqueueParents, hp]]
      exact ih seen queue
    · rw [show enqueueParents seen queue (p :: rest)
          = enqueueParents (insert p seen) (queue ++ [p]) rest by
            simp [enqueueParents, hp]]
      refine (ih (insert p seen) (queue ++ [p])).trans ?_
      rw [Finset.card_insert_of_not_mem hp, List.length_append]
      have hcard : seen.card < n := by
        have h1 : (insert p seen).card ≤ n := by
          have := Finset.card_le_univ (insert p seen)
          simpa using this
        rw [Finset.card_insert_of_not_mem hp] at h1
        omega
      simp only [List.length_singleton]
      omega

theorem invalidateLoop_mono {n : Nat} (parents : Fin n → List (Fin n)) :
    ∀ (fuel : Nat) (cache : Fin n → Bool) (seen : Finset (Fin n))
      (queue : List (Fin n)) (x : Fin n),
    invalidateLoop parents fuel cache seen queue x = true → cache x = true := by
  intro fuel
  induction fuel with
  | zero =>
    intro cache seen queue x h
    cases queue with
    | nil => exact h
    | cons w rest => exact h
  | succ f ih =>
    intro cache seen queue x h
    cases queue with
    | nil => exact h
    | cons w rest =>
      simp only [invalidateLoop] at h
      by_cases hw : cache w = false
      · rw [if_pos hw] at h
        exact ih _ _ _ _ h
      · rw [if_neg hw] at h
        have h2 := ih _ _ _ _ h
        by_cases hxw : x = w
        · subst hxw
          simp at h2
        · simpa [hxw] using h2

theorem invalidateLoop_clears_queue {n : Nat} (parents : Fin n → List (Fin n)) :
    ∀ (fuel : Nat) (cache : Fin n → Bool) (seen : Finset (Fin n))
      (queue : List (Fin n)),
    loopInv cache seen queue →
    queue.length + (n - seen.card) ≤ fuel →
    ∀ x ∈ queue, invalidateLoop parents fuel cache seen queue x = false := by
  intro fuel
  induction fuel with
  | zero =>
    intro cache seen queue _ hpot x hx
    cases queue with
    | nil => simp at hx
    | cons w rest => simp at hpot
  | succ f ih =>
    intro cache seen queue hinv hpot x hx
    cases queue with
    | nil => simp at hx
    | cons w rest =>
      obtain ⟨hnd, hsub, hclear⟩ := hinv
      simp only [invalidateLoop]
      by_cases hw : cache w = false
      · rw [if_pos hw]
        have hinv' : loopInv cache seen rest := by
          refine ⟨hnd.of_cons, fun y hy => hsub y (List.mem_cons_of_mem _ hy),
            fun y hy hyq => ?_⟩
          by_cases hyw : y = w
          · subst hyw; exact hw
          · exact hclear y hy (by simp [hyw, hyq])
        have hpot' : rest.length + (n - seen.card) ≤ f := by
          simp only [List.length_cons] at hpot
          omega
        rcases List.mem_cons.mp hx with rfl | hx'
        · have hmono := invalidateLoop_mono parents f cache seen rest x
          cases hres : invalidateLoop parents f cache seen rest x
          · rfl
          · exact absurd (hmono hres) (by simp [hw])
        · exact ih cache seen rest hinv' hpot' x hx'
      · rw [if_neg hw]
        obtain ⟨e4, e11, e1, e8, e7⟩ := enqueueParents_spec (parents w) seen rest
        obtain ⟨hnd', hsub'⟩ := enqueueParents_nodup (parents w) seen rest
          hnd.of_cons (fun y hy => hsub y (List.mem_cons_of_mem _ hy))
        have hclear' : ∀ y ∈ (enqueueParents seen rest (parents w)).1,
            y ∉ (enqueueParents seen rest (parents w)).2 →
            (if y = w then false else cache y) = false := by
          intro y hy hyq
          rcases e7 y hy with hys | hyq'
          · by_cases hyw : y = w
            · simp [hyw]
            · rw [if_neg hyw]
              refine hclear y hys ?_
              intro hyQ
              rcases List.mem_cons.mp hyQ with rfl | hyr
              · exact hyw rfl
              · exact hyq (e4 y hyr)
          · exact absurd hyq' hyq
        have hpot' : (enqueueParents seen rest (parents w)).2.length
            + (n - (enqueueParents seen rest (parents w)).1.card) ≤ f := by
          have hE := enqueueParents_potential (parents w) seen rest
          simp only [List.length_cons] at hpot
          omega
        rcases List.mem_cons.mp hx with rfl | hx'
        · have hmono := invalidateLoop_mono parents f
            (fun y => if y = x then false else cache y)
            (enqueueParents seen rest (parents x)).1
            (enqueueParents seen rest (parents x)).2 x
          cases hres : invalidateLoop parents f
            (fun y => if y = x then false else cache y)
            (enqueueParents seen rest (parents x)).1
            (enqueueParents seen rest (parents x)).2 x
          · rfl
          · have h2 := hmono hres
            simp at h2
        · exact ih _ _ _ ⟨hnd', hsub', hclear'⟩ hpot' x (e4 x hx')

theorem invalidateLoop_clears_seen {n : Nat} (parents : Fin n → List (Fin n))
    (fuel : Nat) (cache : Fin n → Bool) (seen : Finset (Fin n))
    (queue : List (Fin n))
    (hinv : loopInv cache seen queue)
    (hpot : queue.length + (n - seen.card) ≤ fuel) :
    ∀ x ∈ seen, invalidateLoop parents fuel cache seen queue x = false := by
  intro x hx
  by_cases hq : x ∈ queue
  · exact invalidateLoop_clears_queue parents fuel cache seen queue hinv hpot x hq
  · have hcx := hinv.2.2 x hx hq
    have hmono := invalidateLoop_mono parents fuel cache seen queue x
    cases hres : invalidateLoop parents fuel cache seen queue x
    · rfl
    · exact absurd (hmono hres) (by simp [hcx])

theorem cachedChain_split {n : Nat} (parents : Fin n → List (Fin n))
    (cache : Fin n → Bool) (w : Fin n) :
    ∀ (l : List (Fin n)) (x z : Fin n),
    cachedChain parents cache x l z →
    cachedChain parents (fun y => if y = w then false else cache y) x l z
    ∨ ∃ l₂, cachedChain parents cache w l₂ z
        ∧ ((x = w ∧ l₂ = l) ∨ l₂.length < l.length) := by
  intro l
  induction l with
  | nil =>
    intro x z h
    exact .inl h
  | cons p ps ih =>
    intro x z h
    obtain ⟨hx, hp, hrest⟩ := h
    by_cases hxw : x = w
    · subst hxw
      exact .inr ⟨p :: ps, ⟨hx, hp, hrest⟩, .inl ⟨rfl, rfl⟩⟩
    · rcases ih p z hrest with h' | ⟨l₂, hc, hl⟩
      · exact .inl ⟨by simp [hxw, hx], hp, h'⟩
      · refine .inr ⟨l₂, hc, .inr ?_⟩
        rcases hl with ⟨rfl, rfl⟩ | hlen
        · simp
        · exact Nat.lt_succ_of_lt hlen

theorem invalidateLoop_clears_chain {n : Nat} (parents : Fin n → List (Fin n)) :
    ∀ (fuel : Nat) (cache : Fin n → Bool) (seen : Finset (Fin n))
      (queue : List (Fin n)),
    loopInv cache seen queue →
    queue.length + (n - seen.card) ≤ fuel →
    ∀ (l : List (Fin n)) (x z : Fin n), x ∈ queue →
    cachedChain parents cache x l z →
    invalidateLoop parents fuel cache seen queue z = false := by
  intro fuel
  induction fuel with
  | zero =>
    intro cache seen queue _ hpot l x z hx _
    cases queue with
    | nil => simp at hx
    | cons w rest => simp at hpot
  | succ f ih =>
    intro cache seen queue hinv hpot l x z hx hchain
    cases queue with
    | nil => simp at hx
    | cons w rest =>
      obtain ⟨hnd, hsub, hclear⟩ := hinv
      simp only [invalidateLoop]
      by_cases hw : cache w = false
      · rw [if_pos hw]
        have hinv' : loopInv cache seen rest := by
          refine ⟨hnd.of_cons, fun y hy => hsub y (List.mem_cons_of_mem _ hy),
            fun y hy hyq => ?_⟩
          by_cases hyw : y = w
          · subst hyw; exact hw
          · exact hclear y hy (by simp [hyw, hyq])
        have hpot' : rest.length + (n - seen.card) ≤ f := by
          simp only [List.length_cons] at hpot
          omega
        rcases List.mem_cons.mp hx with rfl | hx'
        · cases l with
          | nil =>
            obtain rfl : x = z := hchain
            exact invalidateLoop_clears_seen parents f cache seen rest hinv'
              hpot' x (hsub x (List.mem_cons_self _ _))
          | cons p ps =>
            obtain ⟨hx1, -, -⟩ := hchain
            exact absurd hx1 (by simp [hw])
        · exact ih cache seen rest hinv' hpot' l x z hx' hchain
      · rw [if_neg hw]
        obtain ⟨e4, e11, e1, e8, e7⟩ := enqueueParents_spec (parents w) seen rest
        obtain ⟨hnd', hsub'⟩ := enqueueParents_nodup (parents w) seen rest
          hnd.of_cons (fun y hy => hsub y (List.mem_cons_of_mem _ hy))
        have hclear' : ∀ y ∈ (enqueueParents seen rest (parents w)).1,
            y ∉ (enqueueParents seen rest (parents w)).2 →
            (if y = w then false else cache y) = false := by
          intro y hy hyq
          rcases e7 y hy with hys | hyq'
          · by_cases hyw : y = w
            · simp [hyw]
            · rw [if_neg hyw]
              refine hclear y hys ?_
              intro hyQ
              rcases List.mem_cons.mp hyQ with rfl | hyr
              · exact hyw rfl
              · exact hyq (e4 y hyr)
          · exact absurd hyq' hyq
        have hinv' : loopInv (fun y => if y = w then false else cache y)
            (enqueueParents seen rest (parents w)).1
            (enqueueParents seen rest (parents w)).2 := ⟨hnd', hsub', hclear'⟩
        have hpot' : (enqueueParents seen rest (parents w)).2.length
            + (n - (enqueueParents seen rest (parents w)).1.card) ≤ f := by
          have hE := enqueueParents_potential (parents w) seen rest
          simp only [List.length_cons] at hpot
          omega
        have hqne : ∀ y ∈ (enqueueParents seen rest (parents w)).2, y ≠ w := by
          intro y hy
          rcases e11 y hy with hyr | ⟨-, hyns⟩
          · intro he
            subst he
            exact (List.nodup_cons.mp hnd).1 hyr
          · intro he
            subst he
            exact hyns (hsub y (List.mem_cons_self _ _))
        have hwseen : w ∈ (enqueueParents seen rest (parents w)).1 :=
          e1 w (hsub w (List.mem_cons_self _ _))
        have INNER : ∀ (m : Nat) (l' : List (Fin n)) (x' : Fin n),
            l'.length ≤ m →
            (x' ∈ (enqueueParents seen rest (parents w)).2 ∨ x' = w) →
            cachedChain parents cache x' l' z →
            invalidateLoop parents f (fun y => if y = w then false else cache y)
              (enqueueParents seen rest (parents w)).1
              (enqueueParents seen rest (parents w)).2 z = false := by
          intro m
          induction m with
          | zero =>
            intro l' x' hlen hx' hch
            cases l' with
            | cons p ps => simp at hlen
            | nil =>
              obtain rfl : x' = z := hch
              rcases hx' with hq | rfl
              · exact invalidateLoop_clears_queue parents f _ _ _ hinv' hpot' x' hq
              · exact invalidateLoop_clears_seen parents f _ _ _ hinv' hpot' x' hwseen
          | succ m ihm =>
            intro l' x' hlen hx' hch
            cases l' with
            | nil =>
              obtain rfl : x' = z := hch
              rcases hx' with hq | rfl
              · exact invalidateLoop_clears_queue parents f _ _ _ hinv' hpot' x' hq
              · exact invalidateLoop_clears_seen parents f _ _ _ hinv' hpot' x' hwseen
            | cons p ps =>
              rcases hx' with hq | rfl
              · rcases cachedChain_split parents cache w (p :: ps) x' z hch
                  with hsplit | ⟨l₂, hcw, hl⟩
                · exact ih _ _ _ hinv' hpot' (p :: ps) x' z hq hsplit
                · rcases hl with ⟨rfl, -⟩ | hlen₂
                  · exact absurd rfl (hqne _ hq)
                  · refine ihm l₂ w ?_ (.inr rfl) hcw
                    have h1 : ps.length + 1 ≤ m + 1 := by simpa using hlen
                    simp only [List.length_cons] at hlen₂
                    omega
              · obtain ⟨hcx', hp, hrest⟩ := hch
                by_cases hpq : p ∈ (enqueueParents seen rest (parents x')).2
                · exact ihm ps p (by simpa using hlen) (.inl hpq) hrest
                · have hpseen : p ∈ (enqueueParents seen rest (parents x')).1 :=
                    e8 p hp
                  by_cases hpw : p = x'
                  · subst hpw
                    exact ihm ps p (by simpa using hlen) (.inr rfl) hrest
                  · have hcp : (if p = x' then false else cache p) = false :=
                      hclear' p hpseen hpq
                    rw [if_neg hpw] at hcp
                    cases ps with
                    | nil =>
                      obtain rfl : p = z := hrest
                      exact invalidateLoop_clears_seen parents f _ _ _ hinv'
                        hpot' p hpseen
                    | cons q ps' =>
                      obtain ⟨hcp', -, -⟩ := hrest
                      exact absurd hcp' (by simp [hcp])
        rcases List.mem_cons.mp hx with rfl | hx'
        · exact INNER l.length l x le_rfl (.inr rfl) hchain
        · exact INNER l.length l x le_rfl (.inl (e4 x hx')) hchain

theorem invalidateLoop_skip {n : Nat} (parents : Fin n → List (Fin n))
    (fuel : Nat) (cache : Fin n → Bool) (seen : Finset (Fin n)) (child : Fin n)
    (h : cache child = false) :
    invalidateLoop parents fuel cache seen [child] = cache := by
  cases fuel with
  | zero => rfl
  | succ f => simp [invalidateLoop, h]

theorem cachedChain_head_cached {n : Nat} (parents : Fin n → List (Fin n))
    (cache : Fin n → Bool) :
    ∀ (l : List (Fin n)) (x z : Fin n), cachedChain parents cache x l z →
    cache z = true → cache x = true := by
  intro l
  cases l with
  | nil =>
    intro x z h hz
    obtain rfl : x = z := h
    exact hz
  | cons p ps =>
    intro x z h _
    exact h.1

theorem reach_to_chain {n : Nat} (parents : Fin n → List (Fin n))
    (cache : Fin n → Bool)
    (hINV : ∀ y p, p ∈ parents y → cache p = true → cache y = true) :
    ∀ (x z : Fin n), ParentReach parents x z → cache z = true →
    ∃ l, cachedChain parents cache x l z := by
  intro x z hreach
  induction hreach with
  | refl x => intro _; exact ⟨[], rfl⟩
  | step hp hrest ihr =>
    intro hz
    obtain ⟨l, hl⟩ := ihr hz
    have hcp := cachedChain_head_cached parents cache l _ _ hl hz
    exact ⟨_ :: l, hINV _ _ hp hcp, hp, hl⟩

/--
C3: invalidating a schema node's cached schema (as `_extend` does when a
new field is registered) also clears the cached schema of every
structural parent transitively, provided caches are in the state the
pull-based generator maintains (a node with a cached schema has cached
children, rendered by the hypothesis); the operation is a no-op on a
node whose cache is already clear and is idempotent.  The breadth-first
walk is total by construction for every parent graph, including cyclic
ones — the witness instantiates a three-node parent cycle.
-/
theorem schema_invalidate_clears_parents {n : Nat}
    (parents : Fin n → List (Fin n)) (cache : Fin n → Bool) (child : Fin n)
    (hINV : ∀ y p, p ∈ parents y → cache p = true → cache y = true) :
    (∀ z, ParentReach parents child z →
      _schema_invalidate parents cache child z = false)
    ∧ (cache child = false → _schema_invalidate parents cache child = cache)
    ∧ _schema_invalidate parents (_schema_invalidate parents cache child) child
      = _schema_invalidate parents cache child := by
  have hn : 0 < n := child.pos
  have hinv₀ : loopInv cache ({child} : Finset (Fin n)) [child] := by
    refine ⟨List.nodup_singleton _, ?_, ?_⟩
    · intro x hx
      simp only [List.mem_singleton] at hx
      simp [hx]
    · intro x hx hq
      simp only [Finset.mem_singleton] at hx
      exact absurd (by simp [hx] : x ∈ [child]) hq
  have hpot₀ : ([child] : List (Fin n)).length
      + (n - ({child} : Finset (Fin n)).card) ≤ n := by
    simp only [List.length_singleton, Finset.card_singleton]
    omega
  refine ⟨?_, ?_, ?_⟩
  · intro z hreach
    by_cases hz : cache z = true
    · obtain ⟨l, hl⟩ := reach_to_chain parents cache hINV child z hreach hz
      exact invalidateLoop_clears_chain parents n cache {child} [child]
        hinv₀ hpot₀ l child z (List.mem_singleton.mpr rfl) hl
    · have hmono := invalidateLoop_mono parents n cache {child} [child] z
      cases hres : invalidateLoop parents n cache {child} [child] z
      · exact hres
      · exact absurd (hmono hres) hz
  · intro hc
    exact invalidateLoop_skip parents n cache {child} child hc
  · have hchild : _schema_invalidate parents cache child child = false :=
      invalidateLoop_clears_queue parents n cache {child} [child] hinv₀ hpot₀
        child (List.mem_singleton.mpr rfl)
    exact invalidateLoop_skip parents n _ {child} child hchild

/-- Witness for `schema_invalidate_clears_parents` on a parent cycle with
every cache initially full. -/
theorem schema_invalidate_clears_parents_witness :
    (∀ z, ParentReach cyclicParents 0 z →
      _schema_invalidate cyclicParents (fun _ => true) 0 z = false)
    ∧ ((fun (_ : Fin 3) => true) 0 = false →
      _schema_invalidate cyclicParents (fun _ => true) 0 = (fun _ => true))
    ∧ _schema_invalidate cyclicParents
        (_schema_invalidate cyclicParents (fun _ => true) 0) 0
      = _schema_invalidate cyclicParents (fun _ => true) 0 :=
  schema_invalidate_clears_parents cyclicParents (fun _ => true) 0
    (fun _ _ _ h => h)

/--
C7: reading a field bound to an `Option` without a default through an
instance whose raw mapping lacks the source key fails with the
missing-required-value `AttributeError` naming both the source key and
the field name, leaves the instance (in particular its `_xlated` memo
cache) unchanged, and a later read after the raw mapping gains the key
succeeds with the translated value, memoizing it.
-/
theorem binding_missing_required (b : BindingR) (inst : InstState)
    (hdef : b.default = none)
    (hraw : assocGet inst.raw b.key = none)
    (hmemo : assocGet inst.xlated b.attr = none) :
    binding_call b inst = (.error (.missingRequired b.key b.attr), inst)
    ∧ (∀ v, binding_call b { inst with raw := assocSet inst.raw b.key v }
        = (.ok (b.xlate v),
            { inst with raw := assocSet inst.raw b.key v,
                        xlated := assocSet inst.xlated b.attr (b.xlate v) })) := by
  constructor
  · simp [binding_call, hmemo, hraw, hdef]
  · intro v
    simp [binding_call, hmemo, assocGet_set_self]

/-- Witness for `binding_missing_required`: a required option `count`
drawn from source key `n`, read through an empty instance and then
through one whose raw mapping supplies `n = 7`. -/
theorem binding_missing_required_witness :
    binding_call ⟨"count", "n", none, fun v => v⟩ ⟨[], []⟩
      = (.error (.missingRequired "n" "count"), ⟨[], []⟩)
    ∧ binding_call ⟨"count", "n", none, fun v => v⟩
        ⟨assocSet [] "n" (.vint 7), []⟩
      = (.ok (.vint 7), ⟨assocSet [] "n" (.vint 7),
          assocSet [] "count" (.vint 7)⟩) := by
  have h := binding_missing_required ⟨"count", "n", none, fun v => v⟩ ⟨[], []⟩
    rfl rfl rfl
  exact ⟨h.1, h.2 (.vint 7)⟩

theorem tupleXlate_none_position (vs : List Value) :
    ∀ (ds : List (Option Desc)) (i : Nat), i < vs.length →
    ds.get? i = some none →
    tupleXlate ds vs = .error .noneNotCallable := by
  induction vs with
  | nil =>
    intro ds i hi _
    simp at hi
  | cons v vs ih =>
    intro ds i hi hds
    cases ds with
    | nil => simp at hds
    | cons d ds' =>
      cases d with
      | none => rfl
      | some f =>
        cases i with
        | zero => simp at hds
        | succ j =>
          have h := ih ds' j (by simpa using hi) (by simpa using hds)
          simp [tupleXlate, h, Except.map]

theorem tupleXlate_ok_spec (vs : List Value) :
    ∀ (ds : List (Option Desc)) (res : List Value),
    tupleXlate ds vs = .ok res →
    res.length = vs.length
    ∧ (∀ i v d, vs.get? i = some v → ds.get? i = some (some d) →
        res.get? i = some (d v))
    ∧ (∀ i v, vs.get? i = some v → ds.length ≤ i → res.get? i = some v) := by
  induction vs with
  | nil =>
    intro ds res h
    simp only [tupleXlate] at h
    obtain rfl : ([] : List Value) = res := by injection h
    refine ⟨rfl, ?_, ?_⟩
    · intro i v d hv _
      simp at hv
    · intro i v hv _
      simp at hv
  | cons v vs ih =>
    intro ds res h
    cases ds with
    | nil =>
      simp only [tupleXlate] at h
      cases hrec : tupleXlate [] vs with
      | error e => rw [hrec] at h; simp [Except.map] at h
      | ok r =>
        rw [hrec] at h
        simp only [Except.map] at h
        obtain rfl : v :: r = res := by injection h
        obtain ⟨hlen, -, hpass⟩ := ih [] r hrec
        refine ⟨by simp [hlen], ?_, ?_⟩
        · intro i w d _ hd
          simp at hd
        · intro i w hv _
          cases i with
          | zero => simpa using hv
          | succ j => exact hpass j w (by simpa using hv) (by simp)
    | cons d ds' =>
      cases d with
      | none => simp [tupleXlate] at h
      | some f =>
        simp only [tupleXlate] at h
        cases hrec : tupleXlate ds' vs with
        | error e => rw [hrec] at h; simp [Except.map] at h
        | ok r =>
          rw [hrec] at h
          simp only [Except.map] at h
          obtain rfl : f v :: r = res := by injection h
          obtain ⟨hlen, hxl, hpass⟩ := ih ds' r hrec
          refine ⟨by simp [hlen], ?_, ?_⟩
          · intro i w g hv hd
            cases i with
            | zero =>
              obtain rfl : v = w := by simpa using hv
              have hfg : some f = some g := by simpa using hd
              obtain rfl : f = g := by injection hfg
              rfl
            | succ j =>
              exact hxl j w g (by simpa using hv) (by simpa using hd)
          · intro i w hv hle
            cases i with
            | zero => simp at hle
            | succ j =>
              exact hpass j w (by simpa using hv)
                (by simpa [Nat.succ_le_succ_iff] using hle)

/--
C9: for a `ListOption` constructed in tuple mode whose `items` sequence
holds a `None` (omitted) position, translating a raw list with an
element at that position raises the `None(val)` `TypeError` rather than
passing the element through; on lists that translate successfully,
every element at a position holding a descriptor is translated by that
descriptor, and elements beyond the end of the `items` sequence pass
through unchanged.
-/
theorem list_option_tuple_null_position (ds : List (Option Desc))
    (vs : List Value) :
    (∀ i, i < vs.length → ds.get? i = some none →
      list_option_call (list_option_init (.seq ds)) vs
        = .error .noneNotCallable)
    ∧ (∀ res, list_option_call (list_option_init (.seq ds)) vs = .ok res →
        res.length = vs.length
        ∧ (∀ i v d, vs.get? i = some v → ds.get? i = some (some d) →
            res.get? i = some (d v))
        ∧ (∀ i v, vs.get? i = some v → ds.length ≤ i → res.get? i = some v)) := by
  constructor
  · intro i hi hds
    exact tupleXlate_none_position vs ds i hi hds
  · intro res h
    exact tupleXlate_ok_spec vs ds res h

/-- Witness for `list_option_tuple_null_position`: descriptors
`[succ-translation, None]` over the raw list `[10, 20]` raise, and over
`[10]` translate position 0 while `[10]` with items `[succ]` passes the
tail through. -/
theorem list_option_tuple_null_position_witness :
    list_option_call (list_option_init (.seq
        [some (fun v => Value.vlist [v]), none])) [.vint 10, .vint 20]
      = .error .noneNotCallable
    ∧ (list_option_call (list_option_init (.seq
        [some (fun v => Value.vlist [v]), none])) [.vint 10]).isOk := by
  constructor
  · exact (list_option_tuple_null_position
      [some (fun v => Value.vlist [v]), none] [.vint 10, .vint 20]).1
      1 (by decide) rfl
  · rfl

/--
C10: for `lookup` and `extend`, a string argument that does not begin
with `/` is always treated as a single bare attribute name at the node
itself — even when it contains `/` characters — while only strings
beginning with `/` (or explicit element lists) are walked as
multi-segment paths.  The final conjuncts exercise the dichotomy on a
node declaring an attribute literally named `a/b` next to a nested
`a` → `b` chain.
-/
theorem lookup_extend_bare_vs_path (cls : CNode) (s : String)
    (hne : s ≠ "") (hns : startsWithSlash s = false) :
    (lookup cls (.str s)
      = (match assocGet (cnodeAttrs cls) s with
         | some (k, c) => .ok (.bnd s k c)
         | none => .error s))
    ∧ (∀ t : String, startsWithSlash t = true →
        lookup cls (.str t)
          = lookupPath (.cls cls) ((splitSlash t).filter (fun p => p ≠ "")))
    ∧ extendParse (.str s) = .ok ([], s)
    ∧ lookup slashDemoNode (.str "a/b") = .ok (.bnd "a/b" "k1" (.mk []))
    ∧ lookup slashDemoNode (.str "/a/b") = .ok (.bnd "b" "k2" (.mk []))
    ∧ extendParse (.str "a/b") = .ok ([], "a/b")
    ∧ extendParse (.str "/a/b") = .ok (["a"], "b") := by
  refine ⟨?_, ?_, ?_, rfl, rfl, rfl, rfl⟩
  · simp only [lookup]
    rw [if_neg hne, if_pos hns]
  · intro t ht
    have htne : t ≠ "" := by
      intro he
      subst he
      exact absurd ht (by decide)
    have hcond : ¬ (startsWithSlash t = false) := by simp [ht]
    simp only [lookup]
    rw [if_neg htne, if_neg hcond]
  · simp only [extendParse]
    rw [if_neg hne, if_pos hns]

/-- Witness for `lookup_extend_bare_vs_path`, instantiated at the
slash-containing bare attribute name `a/b` on the demonstration node. -/
theorem lookup_extend_bare_vs_path_witness :
    (lookup slashDemoNode (.str "a/b")
      = (match assocGet (cnodeAttrs slashDemoNode) "a/b" with
         | some (k, c) => .ok (.bnd "a/b" k c)
         | none => .error "a/b"))
    ∧ (∀ t : String, startsWithSlash t = true →
        lookup slashDemoNode (.str t)
          = lookupPath (.cls slashDemoNode)
              ((splitSlash t).filter (fun p => p ≠ "")))
    ∧ extendParse (.str "a/b") = .ok ([], "a/b")
    ∧ lookup slashDemoNode (.str "a/b") = .ok (.bnd "a/b" "k1" (.mk []))
    ∧ lookup slashDemoNode (.str "/a/b") = .ok (.bnd "b" "k2" (.mk []))
    ∧ extendParse (.str "a/b") = .ok ([], "a/b")
    ∧ extendParse (.str "/a/b") = .ok (["a"], "b") :=
  lookup_extend_bare_vs_path slashDemoNode "a/b" (by decide) (by decide)

/-- Witness for `cow_override_semantics` on a concrete overlay. -/
theorem cow_override_semantics_witness :
    assocGet (getCow (cow_setitem cowWitnessState 0 "a" (.hint 1)) 0).new "a" = none
    ∧ assocGet (getCow (cow_delitem cowWitnessState 0 "e") 0).new "e" = none
    ∧ assocGet (getCow (cow_delitem cowWitnessState 0 "a") 0).new "a" = some none
    ∧ ("b" ∉ cow_iter cowWitnessState 0)
    ∧ cow_len cowWitnessState 0 = (cow_iter cowWitnessState 0).length := by
  have h := cow_override_semantics cowWitnessState 0 (by decide) (by decide)
  exact ⟨h.1 "a" (.hint 1) (.hint 1) rfl rfl, h.2.1 "e" rfl,
    h.2.2.1 "a" (.hint 1) rfl, h.2.2.2.1 "b" rfl, h.2.2.2.2⟩

end Striker

